import Mathlib

/-!
Shallow embedding of the `resource_packager` repository
(`src/resource_library.rs`, `src/index_serialization.rs`).

Modelling conventions:
* Rust `u8` bytes are `Nat`; files, buffers and byte streams are `List Nat`.
* Rust `String` / `&str` values (paths, index strings) are represented by
  their UTF-8 byte sequences (`List Nat`).  Rust's `Ord` on `str` is
  byte-lexicographic, `str::len` is the byte length and `str::bytes`
  yields exactly this sequence, so every operation the repository performs
  on strings acts on this representation.  The `std::str::from_utf8`
  re-validation performed by the deserializer is Rust standard-library
  code (not code of this repository); on the byte representation it is the
  identity, and it is modelled as such.
* `u64` / `usize` arithmetic is `Nat` with an explicit `% 2 ^ 64` where the
  source can overflow (the target is 64-bit: `usize::to_be_bytes` is 8
  bytes).  `i64` values are `Int` with explicit two's-complement wrapping.
* Fallible Rust code (`anyhow::Result`) becomes `Except LibError`;
  distinct `bail!` / error sites get distinct `LibError` constructors.
* `File` handles are a byte buffer plus a cursor; `Read::read` on a
  regular file copies `min(requested, remaining)` bytes into the
  zero-initialised destination buffer, and `Write::write` overwrites at
  the cursor, extending the file at the end.
* The LZMA compressor is an external collaborator (`lzma` crate); it is a
  parameter `Codec` consisting of a total `compress` and a
  `decompress` returning `Option` (`none` = corruption error).
-/

namespace ResourcePackager

/-- Error taxonomy of the library: one constructor per distinct error site
in the source (`bail!`/`anyhow!` messages, serialization errors, lzma
errors, I/O errors of a staged resource). -/
inductive LibError where
  | invalidPath (c : Nat)
  | notFound (path : List Nat)
  | fileNotFound
  | headerMismatch
  | eofError
  | codecError
  | ioError
  deriving DecidableEq, Repr

/-- Three-way comparison of `Nat`, mirroring `Ord` on `u8`. -/
def cmpNat (a b : Nat) : Ordering :=
  if a < b then .lt else if b < a then .gt else .eq

/-- Byte-lexicographic comparison of byte sequences: Rust's `Ord` for
`str`, `String` and `[u8]`. -/
def compareBytes : List Nat → List Nat → Ordering
  | [], [] => .eq
  | [], _ :: _ => .lt
  | _ :: _, [] => .gt
  | a :: as_, b :: bs =>
    match cmpNat a b with
    | .eq => compareBytes as_ bs
    | o => o

/-- Big-endian byte expansion: `k` bytes of `n` (most significant first),
the value taken modulo `256 ^ k`.  `beBytes 8 n` is `u64::to_be_bytes`
(and, on the 64-bit target, `usize::to_be_bytes`). -/
def beBytes : Nat → Nat → List Nat
  | 0, _ => []
  | k + 1, n => beBytes k (n / 256) ++ [n % 256]

/-- `u64::to_be_bytes` (8 bytes, big-endian, value mod `2 ^ 64`). -/
def toBE64 (n : Nat) : List Nat := beBytes 8 n

/-- `u64::from_be_bytes`: fold bytes most-significant first. -/
def fromBE (l : List Nat) : Nat := l.foldl (fun acc b => acc * 256 + b) 0

/-- Modelled semantics of `Read::read` on a regular file into a
zero-initialised buffer of size `n` after seeking to `pos`: the available
bytes, padded with the buffer's zeroes when the file is shorter. -/
def read_bytes (file : List Nat) (pos n : Nat) : List Nat :=
  ((file.drop pos).take n) ++ List.replicate (n - (file.length - pos)) 0

/-- Modelled semantics of `Write::write` on a `File`: overwrite `d` at
offset `p`, extending the file (with a zero hole, never exercised here)
when `p` is past the end. -/
def overwrite_at (buf : List Nat) (p : Nat) (d : List Nat) : List Nat :=
  buf.take p ++ List.replicate (p - buf.length) 0 ++ d ++ buf.drop (p + d.length)

/-- `IndexSerializer::serialize_u64`: 8 bytes big-endian. -/
def serialize_u64 (n : Nat) : List Nat := toBE64 n

/-- `IndexSerializer::serialize_str`: `u64` byte-length prefix (`v.len()
as u64`), then the UTF-8 bytes. -/
def serialize_str (s : List Nat) : List Nat := toBE64 s.length ++ s

/-- One `(String, u64, u64)` tuple: elements concatenated, no prefix
(`serialize_tuple`). -/
def serialize_triple (t : List Nat × Nat × Nat) : List Nat :=
  serialize_str t.1 ++ serialize_u64 t.2.1 ++ serialize_u64 t.2.2

/-- `Vec<(String, u64, u64)>::serialize` against `IndexSerializer`:
`u64` element-count prefix (`serialize_seq`), then the tuples in order. -/
def serialize_index (l : List (List Nat × Nat × Nat)) : List Nat :=
  toBE64 l.length ++ l.flatMap serialize_triple

/-- `IndexDeserializer::next_u64`: fails with a deserialization error
(`EOF`) when fewer than 8 bytes remain. -/
def next_u64 (buf : List Nat) : Except LibError (Nat × List Nat) :=
  if buf.length < 8 then .error .eofError
  else .ok (fromBE (buf.take 8), buf.drop 8)

/-- `IndexDeserializer::next_str`: `u64` length, then that many bytes.
The `std::str::from_utf8` re-validation is Rust standard-library code,
the identity on the byte representation of a string (see the module
docstring); the returned value is the byte sequence itself. -/
def next_str (buf : List Nat) : Except LibError (List Nat × List Nat) :=
  match next_u64 buf with
  | .error e => .error e
  | .ok (len, rest) =>
    if rest.length < len then .error .eofError
    else .ok (rest.take len, rest.drop len)

/-- Decoding one `(String, u64, u64)` tuple (`deserialize_tuple`:
elements in order). -/
def parse_triple (buf : List Nat) : Except LibError ((List Nat × Nat × Nat) × List Nat) :=
  match next_str buf with
  | .error e => .error e
  | .ok (s, b1) =>
    match next_u64 b1 with
    | .error e => .error e
    | .ok (o, b2) =>
      match next_u64 b2 with
      | .error e => .error e
      | .ok (n, b3) => .ok ((s, o, n), b3)

/-- Decoding `count` tuples in order (`SeqAccess`: the visitor pulls
elements until the count is exhausted). -/
def parse_elems : Nat → List Nat → Except LibError (List (List Nat × Nat × Nat) × List Nat)
  | 0, buf => .ok ([], buf)
  | n + 1, buf =>
    match parse_triple buf with
    | .error e => .error e
    | .ok (t, b1) =>
      match parse_elems n b1 with
      | .error e => .error e
      | .ok (ts, b2) => .ok (t :: ts, b2)

/-- `index_from_bytes`: `u64` count, then the tuples; trailing bytes are
ignored (the deserializer is dropped). -/
def index_from_bytes (bytes : List Nat) : Except LibError (List (List Nat × Nat × Nat)) :=
  match next_u64 bytes with
  | .error e => .error e
  | .ok (count, b1) =>
    match parse_elems count b1 with
    | .error e => .error e
    | .ok (ts, _) => .ok ts

/-- `FORBIDDEN_CHARACTERS = "\\?%*:|\"<>,;="` as bytes (all ASCII, so the
character-level scan of the source coincides with this byte-level scan:
every non-ASCII UTF-8 code unit is `≥ 0x80`). -/
def FORBIDDEN_CHARACTERS : List Nat :=
  [0x5C, 0x3F, 0x25, 0x2A, 0x3A, 0x7C, 0x22, 0x3C, 0x3E, 0x2C, 0x3B, 0x3D]

/-- `HEADER_BYTES`: the 10-byte fingerprint. -/
def HEADER_BYTES : List Nat :=
  [0x67, 0xD7, 0x70, 0x3A, 0x54, 0x3D, 0xDB, 0xF5, 0x17, 0x95]

/-- `verify_string` / `verify_str`: scan the path in order and fail with
`InvalidPath` at the first forbidden character. -/
def verify_string (s : List Nat) : Except LibError (List Nat) :=
  match s.find? (fun c => FORBIDDEN_CHARACTERS.contains c) with
  | some c => .error (.invalidPath c)
  | none => .ok s

/-- A staged resource, abstracted by the one observation the writer makes
of it: `rewind(); read_to_end()` deterministically yields its bytes
(`some`) or fails with an `std::io::Error` (`none`, surfaced as
`LibError.ioError` by the `?` operator). -/
def Resource : Type := Option (List Nat)

/-- `CompressionLevel` with its discriminants 1/3/5/7/9. -/
inductive CompressionLevel where
  | fastest
  | fast
  | normal
  | maximum
  | ultra
  deriving DecidableEq, Repr

/-- The `as u32` discriminant value passed to `lzma::compress`. -/
def CompressionLevel.val : CompressionLevel → Nat
  | .fastest => 1
  | .fast => 3
  | .normal => 5
  | .maximum => 7
  | .ultra => 9

/-- The external LZMA collaborator (`lzma::compress` /
`lzma::decompress`): a total compressor and a decompressor that returns
`none` on corrupt input. -/
structure Codec where
  compress : List Nat → Nat → List Nat
  decompress : List Nat → Option (List Nat)

/-- `BTreeMap::insert` on the sorted-by-key association-list
representation (replaces an existing entry at an equal key). -/
def map_insert {α : Type} (k : List Nat) (v : α) :
    List (List Nat × α) → List (List Nat × α)
  | [] => [(k, v)]
  | (k', v') :: rest =>
    match compareBytes k k' with
    | .lt => (k, v) :: (k', v') :: rest
    | .eq => (k, v) :: rest
    | .gt => (k', v') :: map_insert k v rest

/-- `BTreeMap::get`: the value at an exactly equal key. -/
def map_get {α : Type} : List (List Nat × α) → List Nat → Option α
  | [], _ => none
  | (k', v) :: rest, k =>
    if compareBytes k k' = .eq then some v else map_get rest k

/-- `BTreeMap::remove`: the value at an exactly equal key together with
the map without that entry. -/
def map_remove {α : Type} : List (List Nat × α) → List Nat →
    Option (α × List (List Nat × α))
  | [], _ => none
  | (k', v) :: rest, k =>
    if compareBytes k k' = .eq then some (v, rest)
    else
      match map_remove rest k with
      | none => none
      | some (r, m) => some (r, (k', v) :: m)

/-- `ResourceLibraryWriter`: a `BTreeMap<String, Box<dyn Resource>>`,
modelled as its sorted association list. -/
structure ResourceLibraryWriter where
  map : List (List Nat × Resource)

/-- `ResourceLibraryWriter::new`. -/
def ResourceLibraryWriter.new : ResourceLibraryWriter := ⟨[]⟩

/-- `ResourceLibraryWriter::write_stream`: validate the path, then insert
(replacing any existing entry).  The pair is (Rust return value,
post-state). -/
def ResourceLibraryWriter.write_stream (w : ResourceLibraryWriter)
    (path : List Nat) (stream : Resource) :
    Except LibError Unit × ResourceLibraryWriter :=
  match verify_string path with
  | .error e => (.error e, w)
  | .ok p => (.ok (), ⟨map_insert p stream w.map⟩)

/-- `ResourceLibraryWriter::read_data`: validate the path, look it up,
read the resource fully; never removes the entry. -/
def ResourceLibraryWriter.read_data (w : ResourceLibraryWriter)
    (path : List Nat) :
    Except LibError (List Nat) × ResourceLibraryWriter :=
  match verify_string path with
  | .error e => (.error e, w)
  | .ok p =>
    match map_get w.map p with
    | none => (.error (.notFound path), w)
    | some r =>
      match r with
      | none => (.error .ioError, w)
      | some bytes => (.ok bytes, w)

/-- `ResourceLibraryWriter::take_data`: remove the entry (no path
validation in the source), then read the removed resource fully; on a
read error the entry has already left the map. -/
def ResourceLibraryWriter.take_data (w : ResourceLibraryWriter)
    (path : List Nat) :
    Except LibError (List Nat) × ResourceLibraryWriter :=
  match map_remove w.map path with
  | none => (.error (.notFound path), w)
  | some (r, m) =>
    match r with
    | none => (.error .ioError, ⟨m⟩)
    | some bytes => (.ok bytes, ⟨m⟩)

/-- `ResourceLibraryWriter::get_all_files`: the staged paths in map
(ascending) order. -/
def ResourceLibraryWriter.get_all_files (w : ResourceLibraryWriter) : List (List Nat) :=
  w.map.map (fun e => e.1)

/-- A writable `File`: byte buffer plus cursor. -/
structure ByteFile where
  buffer : List Nat
  pos : Nat

/-- `File::write` (full write at the cursor, advancing it). -/
def fwrite (f : ByteFile) (d : List Nat) : ByteFile :=
  ⟨overwrite_at f.buffer f.pos d, f.pos + d.length⟩

/-- `File::seek(SeekFrom::Start(p))`. -/
def fseek (f : ByteFile) (p : Nat) : ByteFile := ⟨f.buffer, p⟩

/-- The per-resource reads of the flush loop, in map order: `rewind`,
`read_to_end`; the first I/O failure aborts (`?`). -/
def read_all : List (List Nat × Resource) → Except LibError (List (List Nat × List Nat))
  | [] => .ok []
  | (p, r) :: rest =>
    match r with
    | none => .error .ioError
    | some b =>
      match read_all rest with
      | .error e => .error e
      | .ok raw => .ok ((p, b) :: raw)

/-- `u64::MAX`, the placeholder sentinel. -/
def U64MAX : Nat := 2 ^ 64 - 1

/-- The flush loop of `write_to_file`, starting from cumulative data
length `acc`: compress each resource, record `(offset, compressed length)`
into the index (`data_len` before the write, `f_data.len() as u64`), and
accumulate the compressed payloads and the wrapping `u64` total. -/
def flush_loop (codec : Codec) (lvl : Nat) :
    Nat → List (List Nat × List Nat) →
      List (List Nat × Nat × Nat) × List Nat × Nat
  | acc, [] => ([], [], acc)
  | acc, (p, b) :: rest =>
    let f := codec.compress b lvl
    let out := flush_loop codec lvl ((acc + f.length % 2 ^ 64) % 2 ^ 64) rest
    ((p, acc, f.length % 2 ^ 64) :: out.1, f ++ out.2.1, out.2.2)

/-- The placeholder index built at the start of `write_to_file`: one
`(path, u64::MAX, u64::MAX)` sentinel triple per staged path, in map
(ascending) order. -/
def placeholder_index (w : ResourceLibraryWriter) : List (List Nat × Nat × Nat) :=
  w.map.map (fun e => (e.1, U64MAX, U64MAX))

/-- `ResourceLibraryWriter::write_to_file`, flushing to a fresh (empty)
destination file: build the placeholder index (sentinel `u64::MAX`
fields), write fingerprint, index length (`usize` big-endian), a zero
data-length placeholder and the placeholder index; stream the compressed
resources while finalizing the index; seek back to the data-length field,
overwrite it, and overwrite the index in place (the cursor lands exactly
at the index start after the data-length write).  Returns Rust's `Ok(())`
payload together with the final file state. -/
def ResourceLibraryWriter.write_to_file (w : ResourceLibraryWriter)
    (codec : Codec) (compression_level : CompressionLevel) :
    Except LibError (Unit × ByteFile) :=
  let placeholder := placeholder_index w
  let index_data := serialize_index placeholder
  match read_all w.map with
  | .error e => .error e
  | .ok raw =>
    let out := flush_loop codec compression_level.val 0 raw
    let f1 := fwrite ⟨[], 0⟩ HEADER_BYTES
    let f2 := fwrite f1 (toBE64 index_data.length)
    let data_len_offset := f2.pos
    let f3 := fwrite f2 (toBE64 0)
    let f4 := fwrite f3 index_data
    let f5 := fwrite f4 out.2.1
    let f6 := fseek f5 data_len_offset
    let f7 := fwrite f6 (toBE64 out.2.2)
    let f8 := fwrite f7 (serialize_index out.1)
    .ok ((), f8)

/-- Rust `slice::binary_search_by` over index range `[lo, hi)`:
`f i` compares element `i` against the target.  The loop is embedded
structurally with a fuel argument; any `fuel ≥ hi - lo` yields the loop's
behaviour, since every iteration shrinks the interval. -/
def bsearch_aux (f : Nat → Ordering) : Nat → Nat → Nat → Option Nat
  | 0, _, _ => none
  | fuel + 1, lo, hi =>
    if lo < hi then
      match f ((lo + hi) / 2) with
      | .lt => bsearch_aux f fuel ((lo + hi) / 2 + 1) hi
      | .gt => bsearch_aux f fuel lo ((lo + hi) / 2)
      | .eq => some ((lo + hi) / 2)
    else none

/-- `binary_search_by` on a list: `some i` with `f (l.get i) = .eq`, or
`none` (Rust's `Err(insertion point)`, mapped to the lookup failure). -/
def binary_search_idx {α : Type} (l : List α) (dflt : α) (f : α → Ordering) : Option Nat :=
  bsearch_aux (fun i => f (l.getD i dflt)) l.length 0 l.length

/-- `ResourceLibraryReader`: open file handle, eagerly parsed index, and
the recorded data-block base position. -/
structure ResourceLibraryReader where
  file : List Nat
  index : List (List Nat × Nat × Nat)
  data_pointer : Nat

/-- `ResourceLibraryReader::new`: read and check the 10-byte fingerprint,
read `L_idx` and `L_data` (`L_data` is read but unused, mirroring
`_data_size`), read `L_idx` bytes (zero-padded when the file is shorter —
the short read is not detected), decode the index, and record the cursor
(`min(file length, 26 + L_idx)`) as the data-block base. -/
def ResourceLibraryReader.new (file : List Nat) :
    Except LibError ResourceLibraryReader :=
  let first_10 := read_bytes file 0 10
  if first_10 = HEADER_BYTES then
    let index_size := fromBE (read_bytes file 10 8)
    match index_from_bytes (read_bytes file 26 index_size) with
    | .error e => .error e
    | .ok index => .ok ⟨file, index, min file.length (26 + index_size)⟩
  else .error .headerMismatch

/-- `ResourceLibraryReader::read_file`: binary-search the index for the
path (no validation), seek to `data_pointer + offset` (wrapping `u64`
addition), read `length` bytes (zero-padded when fewer are available) and
decompress. -/
def ResourceLibraryReader.read_file (r : ResourceLibraryReader) (codec : Codec)
    (path : List Nat) : Except LibError (List Nat) :=
  match binary_search_idx r.index ([], 0, 0) (fun e => compareBytes e.1 path) with
  | none => .error .fileNotFound
  | some i =>
    let e := r.index.getD i ([], 0, 0)
    let buffer := read_bytes r.file ((r.data_pointer + e.2.1) % 2 ^ 64) e.2.2
    match codec.decompress buffer with
    | none => .error .codecError
    | some d => .ok d

/-- `ResourceLibraryReader::get_all_files`: the index paths in order. -/
def ResourceLibraryReader.get_all_files (r : ResourceLibraryReader) : List (List Nat) :=
  r.index.map (fun e => e.1)

/-- `ByteStream`: an in-memory `Box<[u8]>` with a cursor. -/
structure ByteStream where
  bytes : List Nat
  position : Nat

/-- `std::io::SeekFrom` (`fromEnd` models `SeekFrom::End`); `Start` holds
a `u64`, the other two an `i64`. -/
inductive SeekFrom where
  | start (offset : Nat)
  | fromEnd (offset : Int)
  | current (offset : Int)

/-- Domain of the machine-representable seek arguments. -/
def SeekFrom.wf : SeekFrom → Prop
  | .start offset => offset < 2 ^ 64
  | .fromEnd offset => -2 ^ 63 ≤ offset ∧ offset < 2 ^ 63
  | .current offset => -2 ^ 63 ≤ offset ∧ offset < 2 ^ 63

/-- `usize as i64` on the 64-bit target: two's-complement
reinterpretation. -/
def usizeAsI64 (n : Nat) : Int :=
  if n < 2 ^ 63 then (n : Int) else (n : Int) - 2 ^ 64

/-- `i64 as usize`: two's-complement reinterpretation (a negative value
becomes `2^64 + value`). -/
def i64AsUsize (z : Int) : Nat := (z % 2 ^ 64).toNat

/-- Wrapping `i64` arithmetic (release-mode overflow semantics). -/
def wrapI64 (z : Int) : Int := (z + 2 ^ 63) % 2 ^ 64 - 2 ^ 63

/-- `Seek for ByteStream`: compute the raw target (with `as usize` casts
and wrapping `i64` sums), then clamp the position to the buffer length.
Total — it always returns `Ok(new position as u64)`. -/
def ByteStream.seek (bs : ByteStream) (p : SeekFrom) : ByteStream × Nat :=
  let raw : Nat :=
    match p with
    | .start offset => offset
    | .fromEnd offset => i64AsUsize (wrapI64 (usizeAsI64 bs.bytes.length + offset))
    | .current offset => i64AsUsize (wrapI64 (usizeAsI64 bs.position + offset))
  let newPos := min raw bs.bytes.length
  (⟨bs.bytes, newPos⟩, newPos)

/-- The computed signed seek target before the `as usize` cast (for
`Start` the unsigned offset itself). -/
def seek_target (bs : ByteStream) : SeekFrom → Int
  | .start offset => (offset : Int)
  | .fromEnd offset => wrapI64 (usizeAsI64 bs.bytes.length + offset)
  | .current offset => wrapI64 (usizeAsI64 bs.position + offset)

/-- Strict ascending key order of an association list: the `BTreeMap`
iteration-order invariant, and also the on-disk index-sortedness
property. -/
def MapSorted {α : Type} (m : List (List Nat × α)) : Prop :=
  List.Pairwise (fun a b => compareBytes a.1 b.1 = .lt) m

/-- Staging a list of `(path, bytes)` pairs left to right with
`write_stream`, starting from `ResourceLibraryWriter::new`. -/
def stage_all (pairs : List (List Nat × List Nat)) : ResourceLibraryWriter :=
  pairs.foldl (fun w pb => (w.write_stream pb.1 (some pb.2)).2)
    ResourceLibraryWriter.new

/-- The same staging fold on plain `(path, bytes)` maps (the writer's map
without the `Except.ok` wrapper). -/
def raw_stage (pairs : List (List Nat × List Nat)) : List (List Nat × List Nat) :=
  pairs.foldl (fun m pb => map_insert pb.1 pb.2 m) []

/-- Wrap every staged byte value as a successfully readable resource. -/
def ok_map (m : List (List Nat × List Nat)) : List (List Nat × Resource) :=
  m.map (fun e => (e.1, some e.2))

/-- Total compressed size of a staged `(path, bytes)` map at a codec and
tier: the data-block length when nothing wraps. -/
def compressed_total (codec : Codec) (lvl : Nat)
    (m : List (List Nat × List Nat)) : Nat :=
  (m.map (fun e => (codec.compress e.2 lvl).length)).sum

/-- Size of the archive file a flush of `m` produces (header + index +
data block); bounding it below `2 ^ 64` rules every `u64`/`usize`
wrap-around out. -/
def flush_file_size (codec : Codec) (lvl : Nat)
    (m : List (List Nat × List Nat)) : Nat :=
  26 + (serialize_index (m.map (fun e => (e.1, U64MAX, U64MAX)))).length +
    compressed_total codec lvl m

/-- The identity codec: a concrete `Codec` satisfying the decompression
round-trip contract, used to instantiate witnesses. -/
def idCodec : Codec := ⟨fun b _ => b, fun b => some b⟩

/-! Helper lemmas about the embedded definitions. -/
theorem compareBytes_cons (x y : Nat) (xs ys : List Nat) :
    compareBytes (x :: xs) (y :: ys) =
      if x < y then .lt else if y < x then .gt else compareBytes xs ys := by
  simp only [compareBytes, cmpNat]
  rcases Nat.lt_trichotomy x y with h | h | h
  · simp [h]
  · subst h
    simp
  · simp [h, Nat.lt_asymm h]

theorem compareBytes_eq_iff : ∀ {a b : List Nat}, compareBytes a b = .eq ↔ a = b := by
  intro a
  induction a with
  | nil => intro b; cases b <;> simp [compareBytes]
  | cons x xs ih =>
    intro b
    cases b with
    | nil => simp [compareBytes]
    | cons y ys =>
      rw [compareBytes_cons]
      split_ifs with h1 h2
      · simp
        omega
      · simp
        omega
      · rw [ih]
        simp
        omega

theorem compareBytes_gt_iff_lt :
    ∀ {a b : List Nat}, compareBytes a b = .gt ↔ compareBytes b a = .lt := by
  intro a
  induction a with
  | nil => intro b; cases b <;> simp [compareBytes]
  | cons x xs ih =>
    intro b
    cases b with
    | nil => simp [compareBytes]
    | cons y ys =>
      rw [compareBytes_cons, compareBytes_cons]
      rcases Nat.lt_trichotomy x y with h | h | h
      · simp [h, Nat.lt_asymm h]
      · subst h
        simp [ih]
      · simp [h, Nat.lt_asymm h]

theorem compareBytes_lt_trans :
    ∀ {a b c : List Nat}, compareBytes a b = .lt → compareBytes b c = .lt →
      compareBytes a c = .lt := by
  intro a
  induction a with
  | nil =>
    intro b c hab hbc
    cases b with
    | nil => exact hbc
    | cons y ys =>
      cases c with
      | nil => simp [compareBytes] at hbc
      | cons z zs => simp [compareBytes]
  | cons x xs ih =>
    intro b c hab hbc
    cases b with
    | nil => simp [compareBytes] at hab
    | cons y ys =>
      cases c with
      | nil => simp [compareBytes] at hbc
      | cons z zs =>
        rw [compareBytes_cons] at hab hbc ⊢
        split_ifs at hab with h1 h2 <;> split_ifs at hbc with h3 h4 <;>
          split_ifs with h5 h6 <;> first
            | rfl
            | omega
            | (exact absurd hab (by simp))
            | (exact absurd hbc (by simp))
            | (exact ih hab hbc)

theorem beBytes_length (k n : Nat) : (beBytes k n).length = k := by
  induction k generalizing n with
  | zero => rfl
  | succ k ih => simp [beBytes, ih]

theorem toBE64_length (n : Nat) : (toBE64 n).length = 8 := beBytes_length 8 n

theorem fromBE_append_singleton (l : List Nat) (b : Nat) :
    fromBE (l ++ [b]) = fromBE l * 256 + b := by
  simp [fromBE, List.foldl_append]

theorem fromBE_beBytes (k n : Nat) : fromBE (beBytes k n) = n % 256 ^ k := by
  induction k generalizing n with
  | zero => simp [beBytes, fromBE, Nat.mod_one]
  | succ k ih =>
    rw [beBytes, fromBE_append_singleton, ih]
    have h256 : (256 : Nat) ^ (k + 1) = 256 * 256 ^ k := by ring
    rw [h256, Nat.mod_mul]
    ring

theorem fromBE_toBE64 (n : Nat) : fromBE (toBE64 n) = n % 2 ^ 64 := by
  have h : (256 : Nat) ^ 8 = 2 ^ 64 := by norm_num
  rw [toBE64, fromBE_beBytes, h]

theorem read_bytes_length (file : List Nat) (pos n : Nat) :
    (read_bytes file pos n).length = n := by
  simp [read_bytes]
  omega

theorem read_bytes_exact (pre mid post : List Nat) (n : Nat)
    (hn : mid.length = n) :
    read_bytes (pre ++ mid ++ post) pre.length n = mid := by
  subst hn
  unfold read_bytes
  rw [List.append_assoc, List.drop_left, List.take_left]
  have hz : mid.length - ((pre ++ (mid ++ post)).length - pre.length) = 0 := by
    simp
  rw [hz, List.replicate_zero, List.append_nil]

theorem overwrite_at_append (buf d : List Nat) :
    overwrite_at buf buf.length d = buf ++ d := by
  simp [overwrite_at]

theorem overwrite_at_exact (pre mid post d : List Nat)
    (hlen : mid.length = d.length) :
    overwrite_at (pre ++ mid ++ post) pre.length d = pre ++ d ++ post := by
  unfold overwrite_at
  rw [List.append_assoc pre mid post, List.take_left]
  have h1 : pre.length - (pre ++ (mid ++ post)).length = 0 := by simp
  rw [h1, List.replicate_zero, List.append_nil]
  have h2 : (pre ++ (mid ++ post)).drop (pre.length + d.length) = post := by
    rw [show pre.length + d.length = (pre ++ mid).length by simp [hlen],
      ← List.append_assoc, List.drop_left]
  rw [h2, List.append_assoc]

theorem next_u64_spec (n : Nat) (rest : List Nat) :
    next_u64 (toBE64 n ++ rest) = .ok (n % 2 ^ 64, rest) := by
  unfold next_u64
  rw [if_neg (by simp [toBE64_length])]
  rw [List.take_append_of_le_length (by simp [toBE64_length]),
      List.drop_append_of_le_length (by simp [toBE64_length])]
  rw [show (8 : Nat) = (toBE64 n).length from (toBE64_length n).symm]
  rw [List.take_length, List.drop_length, List.nil_append, fromBE_toBE64]

theorem next_str_spec (s rest : List Nat) (hs : s.length < 2 ^ 64) :
    next_str (serialize_str s ++ rest) = .ok (s, rest) := by
  unfold next_str serialize_str
  rw [List.append_assoc, next_u64_spec, Nat.mod_eq_of_lt hs]
  simp only []
  rw [if_neg (by simp), List.take_left, List.drop_left]

theorem serialize_triple_length (t : List Nat × Nat × Nat) :
    (serialize_triple t).length = 24 + t.1.length := by
  simp [serialize_triple, serialize_str, serialize_u64, toBE64_length]
  omega

theorem serialize_index_length (l : List (List Nat × Nat × Nat)) :
    (serialize_index l).length = 8 + (l.map (fun t => 24 + t.1.length)).sum := by
  induction l with
  | nil => simp [serialize_index, toBE64_length]
  | cons t ts ih =>
    simp only [serialize_index, List.flatMap_cons, List.map_cons, List.sum_cons,
      List.length_append, toBE64_length] at ih ⊢
    rw [serialize_triple_length]
    omega

/-- The encoded index length depends only on the paths: re-encoding after
replacing the `u64` fields cannot change the byte length. -/
theorem serialize_index_length_of_paths_eq (l₁ l₂ : List (List Nat × Nat × Nat))
    (h : l₁.map (fun t => t.1) = l₂.map (fun t => t.1)) :
    (serialize_index l₁).length = (serialize_index l₂).length := by
  rw [serialize_index_length, serialize_index_length]
  have : l₁.map (fun t => 24 + t.1.length) = l₂.map (fun t => 24 + t.1.length) := by
    have h1 : l₁.map (fun t => 24 + t.1.length)
        = (l₁.map (fun t => t.1)).map (fun p => 24 + p.length) := by
      rw [List.map_map]
      rfl
    have h2 : l₂.map (fun t => 24 + t.1.length)
        = (l₂.map (fun t => t.1)).map (fun p => 24 + p.length) := by
      rw [List.map_map]
      rfl
    rw [h1, h2, h]
  rw [this]

theorem parse_triple_spec (t : List Nat × Nat × Nat) (rest : List Nat)
    (hp : t.1.length < 2 ^ 64) (ho : t.2.1 < 2 ^ 64) (hn : t.2.2 < 2 ^ 64) :
    parse_triple (serialize_triple t ++ rest) = .ok (t, rest) := by
  obtain ⟨s, o, n⟩ := t
  unfold parse_triple serialize_triple
  simp only [serialize_u64] at *
  rw [List.append_assoc, List.append_assoc, next_str_spec s _ hp]
  simp only []
  rw [next_u64_spec, Nat.mod_eq_of_lt ho]
  simp only []
  rw [next_u64_spec, Nat.mod_eq_of_lt hn]

theorem parse_elems_spec (l : List (List Nat × Nat × Nat)) (rest : List Nat)
    (hb : ∀ t ∈ l, t.1.length < 2 ^ 64 ∧ t.2.1 < 2 ^ 64 ∧ t.2.2 < 2 ^ 64) :
    parse_elems l.length (l.flatMap serialize_triple ++ rest) = .ok (l, rest) := by
  induction l with
  | nil => simp [parse_elems]
  | cons t ts ih =>
    obtain ⟨hp, ho, hn⟩ := hb t (List.mem_cons_self t ts)
    simp only [List.length_cons, List.flatMap_cons, parse_elems, List.append_assoc]
    rw [parse_triple_spec t _ hp ho hn]
    simp only []
    rw [ih (fun t ht => hb t (List.mem_cons_of_mem _ ht))]

/-- Index codec round-trip on the wire: decoding an encoded index
reproduces it exactly (any trailing bytes are ignored). -/
theorem index_from_bytes_serialize_index (l : List (List Nat × Nat × Nat))
    (hcount : l.length < 2 ^ 64)
    (hb : ∀ t ∈ l, t.1.length < 2 ^ 64 ∧ t.2.1 < 2 ^ 64 ∧ t.2.2 < 2 ^ 64) :
    index_from_bytes (serialize_index l) = .ok l := by
  unfold index_from_bytes serialize_index
  rw [next_u64_spec, Nat.mod_eq_of_lt hcount]
  simp only []
  rw [show l.flatMap serialize_triple = l.flatMap serialize_triple ++ [] by simp,
    parse_elems_spec l [] hb]

theorem compareBytes_refl (a : List Nat) : compareBytes a a = .eq :=
  compareBytes_eq_iff.mpr rfl

theorem map_insert_mem {α : Type} {k : List Nat} {v : α} :
    ∀ {m : List (List Nat × α)} {x}, x ∈ map_insert k v m → x = (k, v) ∨ x ∈ m := by
  intro m
  induction m with
  | nil =>
    intro x hx
    simp [map_insert] at hx
    exact Or.inl hx
  | cons e rest ih =>
    intro x hx
    rw [map_insert] at hx
    rcases hc : compareBytes k e.1 with _ | _ | _ <;> rw [hc] at hx <;>
      simp only [List.mem_cons] at hx
    · rcases hx with h | h | h
      · exact Or.inl h
      · exact Or.inr (by simp [h])
      · exact Or.inr (by simp [h])
    · rcases hx with h | h
      · exact Or.inl h
      · exact Or.inr (by simp [h])
    · rcases hx with h | h
      · exact Or.inr (by simp [h])
      · rcases ih h with h' | h'
        · exact Or.inl h'
        · exact Or.inr (by simp [h'])

theorem map_insert_sorted {α : Type} {k : List Nat} {v : α} :
    ∀ {m : List (List Nat × α)}, MapSorted m → MapSorted (map_insert k v m) := by
  intro m
  induction m with
  | nil =>
    intro _
    simp [map_insert, MapSorted]
  | cons e rest ih =>
    intro hs
    rw [MapSorted, List.pairwise_cons] at hs
    obtain ⟨hhead, htail⟩ := hs
    rw [map_insert]
    rcases hc : compareBytes k e.1 with _ | _ | _
    · rw [MapSorted, List.pairwise_cons]
      refine ⟨?_, ?_⟩
      · intro x hx
        rcases List.mem_cons.mp hx with h | h
        · rw [h]
          exact hc
        · exact compareBytes_lt_trans hc (hhead x h)
      · rw [MapSorted] at *
        rw [List.pairwise_cons]
        exact ⟨hhead, htail⟩
    · have hk : k = e.1 := compareBytes_eq_iff.mp hc
      rw [MapSorted, List.pairwise_cons]
      refine ⟨?_, htail⟩
      intro x hx
      rw [hk]
      exact hhead x hx
    · rw [MapSorted, List.pairwise_cons]
      refine ⟨?_, ih htail⟩
      intro x hx
      rcases map_insert_mem hx with h | h
      · rw [h]
        exact compareBytes_gt_iff_lt.mp hc
      · exact hhead x h

theorem map_get_insert_self {α : Type} (k : List Nat) (v : α) :
    ∀ (m : List (List Nat × α)), map_get (map_insert k v m) k = some v := by
  intro m
  induction m with
  | nil => simp [map_insert, map_get, compareBytes_refl]
  | cons e rest ih =>
    rw [map_insert]
    rcases hc : compareBytes k e.1 with _ | _ | _
    · simp [map_get, compareBytes_refl]
    · simp [map_get, compareBytes_refl]
    · rw [map_get]
      rw [if_neg (by simp [hc])]
      exact ih

theorem map_get_insert_ne {α : Type} (k k₂ : List Nat) (v : α) (hne : k₂ ≠ k) :
    ∀ (m : List (List Nat × α)), map_get (map_insert k v m) k₂ = map_get m k₂ := by
  intro m
  have hcne : compareBytes k₂ k ≠ .eq := fun h => hne (compareBytes_eq_iff.mp h)
  induction m with
  | nil => simp [map_insert, map_get, hcne]
  | cons e rest ih =>
    rw [map_insert]
    rcases hc : compareBytes k e.1 with _ | _ | _
    · rw [map_get, if_neg hcne]
    · have hk : k = e.1 := compareBytes_eq_iff.mp hc
      rw [map_get, if_neg hcne, map_get]
      rw [hk] at hcne
      rw [if_neg hcne]
    · rw [map_get, map_get]
      split
      · rfl
      · exact ih

theorem map_get_mem {α : Type} :
    ∀ {m : List (List Nat × α)} {k : List Nat} {v : α},
      map_get m k = some v → (k, v) ∈ m := by
  intro m
  induction m with
  | nil => intro k v h; simp [map_get] at h
  | cons e rest ih =>
    intro k v h
    rw [map_get] at h
    split at h
    · rename_i hc
      have : k = e.1 := compareBytes_eq_iff.mp hc
      injection h with h'
      subst this
      subst h'
      exact List.mem_cons_self _ _
    · exact List.mem_cons_of_mem _ (ih h)

theorem map_remove_of_absent {α : Type} :
    ∀ {m : List (List Nat × α)} {k : List Nat},
      (∀ e ∈ m, compareBytes k e.1 ≠ .eq) → map_remove m k = none := by
  intro m
  induction m with
  | nil => intro k _; rfl
  | cons e rest ih =>
    intro k h
    rw [map_remove, if_neg (h e (List.mem_cons_self _ _)),
      ih (fun e' he' => h e' (List.mem_cons_of_mem _ he'))]

theorem bsearch_aux_some (f : Nat → Ordering) :
    ∀ n lo hi i, bsearch_aux f n lo hi = some i →
      lo ≤ i ∧ i < hi ∧ f i = .eq := by
  intro n
  induction n with
  | zero =>
    intro lo hi i hsome
    exact absurd hsome (by simp [bsearch_aux])
  | succ n ih =>
    intro lo hi i hsome
    rw [bsearch_aux] at hsome
    by_cases hlt : lo < hi
    · rw [if_pos hlt] at hsome
      rcases hf : f ((lo + hi) / 2) with _ | _ | _ <;> rw [hf] at hsome
      · have := ih ((lo + hi) / 2 + 1) hi i hsome
        exact ⟨by omega, by omega, this.2.2⟩
      · injection hsome with h1
        subst h1
        exact ⟨by omega, by omega, hf⟩
      · have := ih lo ((lo + hi) / 2) i hsome
        exact ⟨by omega, by omega, this.2.2⟩
    · rw [if_neg hlt] at hsome
      exact absurd hsome (by simp)

theorem bsearch_aux_none (f : Nat → Ordering) :
    ∀ n lo hi, hi - lo ≤ n →
      (∀ i j, i ≤ j → j < hi → (f j = .lt → f i = .lt) ∧ (f i = .gt → f j = .gt)) →
      bsearch_aux f n lo hi = none → ∀ i, lo ≤ i → i < hi → f i ≠ .eq := by
  intro n
  induction n with
  | zero =>
    intro lo hi hn _ _ i hlo hhi
    omega
  | succ n ih =>
    intro lo hi hn hmono hnone i hlo hhi
    rw [bsearch_aux] at hnone
    by_cases hlt : lo < hi
    · rw [if_pos hlt] at hnone
      rcases hf : f ((lo + hi) / 2) with _ | _ | _ <;> rw [hf] at hnone
      · by_cases hi2 : (lo + hi) / 2 + 1 ≤ i
        · exact ih ((lo + hi) / 2 + 1) hi (by omega) hmono hnone i hi2 hhi
        · intro heq
          have := (hmono i ((lo + hi) / 2) (by omega) (by omega)).1 hf
          rw [heq] at this
          exact absurd this (by simp)
      · exact absurd hnone (by simp)
      · by_cases hi2 : i < (lo + hi) / 2
        · exact ih lo ((lo + hi) / 2) (by omega)
            (fun a b hab hb => hmono a b hab (by omega)) hnone i hlo hi2
        · intro heq
          have := (hmono ((lo + hi) / 2) i (by omega) (by omega)).2 hf
          rw [heq] at this
          exact absurd this (by simp)
    · omega

/-- Any hit returned by `binary_search_by` compares equal to the target. -/
theorem binary_search_idx_some {α : Type} (l : List α) (dflt : α) (f : α → Ordering)
    (i : Nat) (h : binary_search_idx l dflt f = some i) :
    i < l.length ∧ f (l.getD i dflt) = .eq := by
  have := bsearch_aux_some (fun j => f (l.getD j dflt)) l.length 0 l.length i h
  exact ⟨this.2.1, this.2.2⟩

/-- On a strictly path-sorted index, a search for a present path cannot
miss. -/
theorem binary_search_idx_of_sorted_mem (l : List (List Nat × Nat × Nat))
    (dflt : List Nat × Nat × Nat) (p : List Nat)
    (hsort : MapSorted l) (j : Nat) (hj : j < l.length)
    (hpath : (l.get ⟨j, hj⟩).1 = p) :
    ∃ i, binary_search_idx l dflt (fun e => compareBytes e.1 p) = some i := by
  have hmono : ∀ a b, a ≤ b → b < l.length →
      ((fun i => compareBytes ((l.getD i dflt)).1 p) b = .lt →
        (fun i => compareBytes ((l.getD i dflt)).1 p) a = .lt) ∧
      ((fun i => compareBytes ((l.getD i dflt)).1 p) a = .gt →
        (fun i => compareBytes ((l.getD i dflt)).1 p) b = .gt) := by
    intro a b hab hb
    by_cases hab' : a = b
    · subst hab'
      exact ⟨id, id⟩
    · have ha : a < l.length := by omega
      have hlt : compareBytes (l.get ⟨a, ha⟩).1 (l.get ⟨b, hb⟩).1 = .lt := by
        have := (List.pairwise_iff_get.mp hsort) ⟨a, ha⟩ ⟨b, hb⟩
          (by simp [Fin.lt_def]; omega)
        exact this
      simp only []
      rw [List.getD_eq_get l dflt ha, List.getD_eq_get l dflt hb]
      constructor
      · intro hblt
        exact compareBytes_lt_trans hlt hblt
      · intro hagt
        rw [compareBytes_gt_iff_lt] at hagt ⊢
        exact compareBytes_lt_trans hagt hlt
  rcases hres : binary_search_idx l dflt (fun e => compareBytes e.1 p) with _ | i
  · exfalso
    have := bsearch_aux_none (fun i => compareBytes ((l.getD i dflt)).1 p)
      l.length 0 l.length (by omega) hmono hres j (by omega) hj
    apply this
    simp only []
    rw [List.getD_eq_get l dflt hj, hpath]
    exact compareBytes_refl p
  · exact ⟨i, rfl⟩

/-- A search for a path absent from the index fails. -/
theorem binary_search_idx_absent (l : List (List Nat × Nat × Nat))
    (dflt : List Nat × Nat × Nat) (p : List Nat)
    (habs : ∀ t ∈ l, t.1 ≠ p) :
    binary_search_idx l dflt (fun e => compareBytes e.1 p) = none := by
  rcases hres : binary_search_idx l dflt (fun e => compareBytes e.1 p) with _ | i
  · rfl
  · exfalso
    obtain ⟨hi, heq⟩ := binary_search_idx_some l dflt _ i hres
    have hmem : l.getD i dflt ∈ l := by
      rw [List.getD_eq_get l dflt hi]
      exact l.get_mem i hi
    exact habs _ hmem (compareBytes_eq_iff.mp heq)

/-- Two index positions carrying the same path coincide when the index is
strictly sorted. -/
theorem MapSorted_path_inj {α : Type} (l : List (List Nat × α))
    (hsort : MapSorted l) (i j : Nat) (hi : i < l.length) (hj : j < l.length)
    (hp : (l.get ⟨i, hi⟩).1 = (l.get ⟨j, hj⟩).1) : i = j := by
  by_contra hne
  have key : ∀ a b (ha : a < l.length) (hb : b < l.length), a < b →
      (l.get ⟨a, ha⟩).1 = (l.get ⟨b, hb⟩).1 → False := by
    intro a b ha hb hab heq
    have := (List.pairwise_iff_get.mp hsort) ⟨a, ha⟩ ⟨b, hb⟩
      (by simp [Fin.lt_def]; omega)
    rw [heq] at this
    rw [compareBytes_refl] at this
    exact absurd this (by simp)
  rcases Nat.lt_or_ge i j with h | h
  · exact key i j hi hj h hp
  · exact key j i hj hi (by omega) hp.symm

theorem verify_string_ok (s : List Nat)
    (h : ∀ c ∈ s, ¬ c ∈ FORBIDDEN_CHARACTERS) : verify_string s = .ok s := by
  unfold verify_string
  have hf : s.find? (fun c => FORBIDDEN_CHARACTERS.contains c) = none := by
    rw [List.find?_eq_none]
    intro c hc
    simpa using h c hc
  rw [hf]

theorem map_insert_ok_map (k : List Nat) (v : List Nat) :
    ∀ (m : List (List Nat × List Nat)),
      map_insert k (some v : Resource) (ok_map m) = ok_map (map_insert k v m) := by
  intro m
  induction m with
  | nil => rfl
  | cons e rest ih =>
    rw [ok_map, List.map_cons, map_insert, map_insert]
    rcases hc : compareBytes k e.1 with _ | _ | _ <;> simp only []
    · rfl
    · rfl
    · rw [← ok_map, ih]
      rfl

theorem stage_fold_map :
    ∀ (pairs : List (List Nat × List Nat)) (m : List (List Nat × List Nat)),
      (∀ pb ∈ pairs, verify_string pb.1 = .ok pb.1) →
      (pairs.foldl (fun w pb => (w.write_stream pb.1 (some pb.2)).2)
          (⟨ok_map m⟩ : ResourceLibraryWriter)).map
        = ok_map (pairs.foldl (fun m pb => map_insert pb.1 pb.2 m) m) := by
  intro pairs
  induction pairs with
  | nil => intro m _; rfl
  | cons pb rest ih =>
    intro m hv
    rw [List.foldl_cons, List.foldl_cons]
    have hstep : ((⟨ok_map m⟩ : ResourceLibraryWriter).write_stream pb.1 (some pb.2)).2
        = ⟨ok_map (map_insert pb.1 pb.2 m)⟩ := by
      rw [ResourceLibraryWriter.write_stream, hv pb (List.mem_cons_self _ _)]
      simp only []
      exact congrArg ResourceLibraryWriter.mk (map_insert_ok_map pb.1 pb.2 m)
    rw [hstep]
    exact ih _ (fun pb' h => hv pb' (List.mem_cons_of_mem _ h))

theorem stage_all_map (pairs : List (List Nat × List Nat))
    (hv : ∀ pb ∈ pairs, verify_string pb.1 = .ok pb.1) :
    (stage_all pairs).map = ok_map (raw_stage pairs) := by
  rw [stage_all, raw_stage]
  exact stage_fold_map pairs [] hv

theorem fold_insert_sorted :
    ∀ (pairs : List (List Nat × List Nat)) (m : List (List Nat × List Nat)),
      MapSorted m →
      MapSorted (pairs.foldl (fun m pb => map_insert pb.1 pb.2 m) m) := by
  intro pairs
  induction pairs with
  | nil => intro m h; exact h
  | cons pb rest ih =>
    intro m h
    rw [List.foldl_cons]
    exact ih _ (map_insert_sorted h)

theorem raw_stage_sorted (pairs : List (List Nat × List Nat)) :
    MapSorted (raw_stage pairs) :=
  fold_insert_sorted pairs [] (by simp [MapSorted])

theorem fold_insert_mem :
    ∀ (pairs : List (List Nat × List Nat)) (m : List (List Nat × List Nat)) x,
      x ∈ pairs.foldl (fun m pb => map_insert pb.1 pb.2 m) m →
      x ∈ pairs ∨ x ∈ m := by
  intro pairs
  induction pairs with
  | nil => intro m x h; exact Or.inr h
  | cons pb rest ih =>
    intro m x h
    rw [List.foldl_cons] at h
    rcases ih _ x h with h' | h'
    · exact Or.inl (List.mem_cons_of_mem _ h')
    · rcases map_insert_mem h' with h'' | h''
      · exact Or.inl (by rw [h'']; exact List.mem_cons_self _ _)
      · exact Or.inr h''

theorem raw_stage_mem (pairs : List (List Nat × List Nat)) (x : List Nat × List Nat)
    (h : x ∈ raw_stage pairs) : x ∈ pairs := by
  rcases fold_insert_mem pairs [] x h with h' | h'
  · exact h'
  · exact absurd h' (by simp)

theorem fold_insert_get_preserved :
    ∀ (pairs : List (List Nat × List Nat)) (m : List (List Nat × List Nat))
      (k : List Nat) (v : List Nat),
      map_get m k = some v → (∀ pb ∈ pairs, pb.1 ≠ k) →
      map_get (pairs.foldl (fun m pb => map_insert pb.1 pb.2 m) m) k = some v := by
  intro pairs
  induction pairs with
  | nil => intro m k v h _; exact h
  | cons pb rest ih =>
    intro m k v h hk
    rw [List.foldl_cons]
    refine ih _ k v ?_ (fun pb' h' => hk pb' (List.mem_cons_of_mem _ h'))
    rw [map_get_insert_ne pb.1 k pb.2
      (fun he => hk pb (List.mem_cons_self _ _) he.symm)]
    exact h

theorem raw_stage_get (pairs : List (List Nat × List Nat))
    (hnd : (pairs.map (fun pb => pb.1)).Nodup) :
    ∀ pb ∈ pairs, map_get (raw_stage pairs) pb.1 = some pb.2 := by
  rw [raw_stage]
  suffices h : ∀ (ps : List (List Nat × List Nat)) (m : List (List Nat × List Nat)),
      (ps.map (fun pb => pb.1)).Nodup →
      ∀ pb ∈ ps, map_get (ps.foldl (fun m pb => map_insert pb.1 pb.2 m) m) pb.1 = some pb.2 by
    exact h pairs [] hnd
  intro ps
  induction ps with
  | nil => intro m _ pb h; exact absurd h (by simp)
  | cons q rest ih =>
    intro m hnd' pb hmem
    rw [List.map_cons, List.nodup_cons] at hnd'
    rw [List.foldl_cons]
    rcases List.mem_cons.mp hmem with h | h
    · subst h
      refine fold_insert_get_preserved rest _ pb.1 pb.2 (map_get_insert_self _ _ _) ?_
      intro pb' h' he
      exact hnd'.1 (by
        rw [← he]
        exact List.mem_map.mpr ⟨pb', h', rfl⟩)
    · exact ih _ hnd'.2 pb h

theorem read_all_ok_map (m : List (List Nat × List Nat)) :
    read_all (ok_map m) = .ok m := by
  induction m with
  | nil => rfl
  | cons e rest ih =>
    rw [ok_map, List.map_cons, read_all, ← ok_map, ih]

theorem flush_loop_idx_length (codec : Codec) (lvl : Nat) :
    ∀ (m : List (List Nat × List Nat)) (acc : Nat),
      (flush_loop codec lvl acc m).1.length = m.length := by
  intro m
  induction m with
  | nil => intro acc; rfl
  | cons e rest ih =>
    intro acc
    rw [flush_loop]
    simp only [List.length_cons]
    rw [ih]

theorem flush_loop_paths (codec : Codec) (lvl : Nat) :
    ∀ (m : List (List Nat × List Nat)) (acc : Nat),
      (flush_loop codec lvl acc m).1.map (fun t => t.1)
        = m.map (fun e => e.1) := by
  intro m
  induction m with
  | nil => intro acc; rfl
  | cons e rest ih =>
    intro acc
    rw [flush_loop]
    simp only [List.map_cons]
    rw [ih]

theorem flush_loop_blk (codec : Codec) (lvl : Nat) :
    ∀ (m : List (List Nat × List Nat)) (acc : Nat),
      (flush_loop codec lvl acc m).2.1
        = m.flatMap (fun e => codec.compress e.2 lvl) := by
  intro m
  induction m with
  | nil => intro acc; rfl
  | cons e rest ih =>
    intro acc
    rw [flush_loop, List.flatMap_cons]
    simp only []
    rw [ih]

theorem flush_loop_total (codec : Codec) (lvl : Nat) :
    ∀ (m : List (List Nat × List Nat)) (acc : Nat),
      acc + compressed_total codec lvl m < 2 ^ 64 →
      (flush_loop codec lvl acc m).2.2 = acc + compressed_total codec lvl m := by
  intro m
  induction m with
  | nil =>
    intro acc _
    simp [flush_loop, compressed_total]
  | cons e rest ih =>
    intro acc hb
    rw [compressed_total, List.map_cons, List.sum_cons] at hb
    have hsz : (codec.compress e.2 lvl).length < 2 ^ 64 := by omega
    rw [flush_loop]
    simp only []
    rw [Nat.mod_eq_of_lt hsz, Nat.mod_eq_of_lt (by omega)]
    rw [ih _ (by rw [compressed_total]; omega)]
    simp only [compressed_total, List.map_cons, List.sum_cons]
    omega

theorem flush_loop_get (codec : Codec) (lvl : Nat) :
    ∀ (m : List (List Nat × List Nat)) (acc : Nat) (j : Nat) (hj : j < m.length),
      acc + compressed_total codec lvl m < 2 ^ 64 →
      (flush_loop codec lvl acc m).1.get? j
        = some ((m.get ⟨j, hj⟩).1,
            acc + compressed_total codec lvl (m.take j),
            (codec.compress (m.get ⟨j, hj⟩).2 lvl).length) := by
  intro m
  induction m with
  | nil =>
    intro acc j hj _
    exact absurd hj (by simp)
  | cons e rest ih =>
    intro acc j hj hb
    rw [compressed_total, List.map_cons, List.sum_cons] at hb
    have hsz : (codec.compress e.2 lvl).length < 2 ^ 64 := by omega
    rw [flush_loop]
    simp only []
    cases j with
    | zero =>
      simp only [List.get?_cons_zero, List.take_zero, List.get]
      rw [Nat.mod_eq_of_lt hsz]
      simp [compressed_total]
    | succ j' =>
      simp only [List.get?_cons_succ, List.get]
      rw [Nat.mod_eq_of_lt hsz, Nat.mod_eq_of_lt (by omega)]
      rw [ih _ j' (by simpa using hj) (by rw [compressed_total]; omega)]
      simp only [List.take_succ_cons, compressed_total, List.map_cons, List.sum_cons,
        Option.some.injEq, Prod.mk.injEq]
      exact ⟨trivial, by omega, trivial⟩

theorem flatMap_segment (g : (List Nat × List Nat) → List Nat) :
    ∀ (m : List (List Nat × List Nat)) (j : Nat) (hj : j < m.length),
      ((m.flatMap g).drop (((m.take j).map (fun e => (g e).length)).sum)).take
          (g (m.get ⟨j, hj⟩)).length
        = g (m.get ⟨j, hj⟩) := by
  intro m
  induction m with
  | nil => intro j hj; exact absurd hj (by simp)
  | cons e rest ih =>
    intro j hj
    cases j with
    | zero =>
      simp only [List.take_zero, List.map_nil, List.sum_nil, List.drop_zero,
        List.flatMap_cons, List.get]
      exact List.take_left _ _
    | succ j' =>
      simp only [List.take_succ_cons, List.map_cons, List.sum_cons, List.flatMap_cons,
        List.get]
      rw [List.drop_append]
      exact ih j' (by simpa using hj)

theorem fwrite_pos_end (buf d : List Nat) (p : Nat) (h : p = buf.length) :
    fwrite ⟨buf, p⟩ d = ⟨buf ++ d, p + d.length⟩ := by
  subst h
  simp [fwrite, overwrite_at_append]

theorem fwrite_pos_mid (pre mid post d : List Nat) (p : Nat)
    (hp : p = pre.length) (hlen : mid.length = d.length) :
    fwrite ⟨pre ++ (mid ++ post), p⟩ d = ⟨pre ++ (d ++ post), p + d.length⟩ := by
  subst hp
  show (⟨overwrite_at (pre ++ (mid ++ post)) pre.length d,
      pre.length + d.length⟩ : ByteFile) = _
  rw [show pre ++ (mid ++ post) = pre ++ mid ++ post from
      (List.append_assoc pre mid post).symm,
    overwrite_at_exact pre mid post d hlen, List.append_assoc]

theorem placeholder_index_ok_map (m : List (List Nat × List Nat)) :
    placeholder_index ⟨ok_map m⟩ = m.map (fun e => (e.1, U64MAX, U64MAX)) := by
  simp only [placeholder_index, ok_map, List.map_map]
  rfl

/-- Byte-level layout of a successful flush of stage `m`: fingerprint,
`L_idx`, final data length, finalized index (the in-place overwrite lands
exactly on the placeholder), then the data block. -/
theorem write_to_file_ok (codec : Codec) (lvl : CompressionLevel)
    (m : List (List Nat × List Nat)) :
    (⟨ok_map m⟩ : ResourceLibraryWriter).write_to_file codec lvl
      = .ok ((), ⟨HEADER_BYTES
          ++ (toBE64 (serialize_index (m.map (fun e => (e.1, U64MAX, U64MAX)))).length
          ++ (toBE64 (flush_loop codec lvl.val 0 m).2.2
          ++ (serialize_index (flush_loop codec lvl.val 0 m).1
          ++ (flush_loop codec lvl.val 0 m).2.1))),
        26 + (serialize_index (flush_loop codec lvl.val 0 m).1).length⟩) := by
  have hpaths : (serialize_index (m.map (fun e => (e.1, U64MAX, U64MAX)))).length
      = (serialize_index (flush_loop codec lvl.val 0 m).1).length := by
    apply serialize_index_length_of_paths_eq
    rw [flush_loop_paths]
    simp only [List.map_map]
    rfl
  unfold ResourceLibraryWriter.write_to_file
  simp only [placeholder_index_ok_map, read_all_ok_map]
  set P := serialize_index (m.map (fun e => (e.1, U64MAX, U64MAX))) with hP
  set F := flush_loop codec lvl.val 0 m with hF
  rw [fwrite_pos_end [] HEADER_BYTES 0 rfl]
  rw [fwrite_pos_end ([] ++ HEADER_BYTES) (toBE64 P.length)
    (0 + HEADER_BYTES.length) (by simp)]
  rw [fwrite_pos_end ([] ++ HEADER_BYTES ++ toBE64 P.length) (toBE64 0)
    (0 + HEADER_BYTES.length + (toBE64 P.length).length) (by simp [Nat.add_assoc])]
  rw [fwrite_pos_end ([] ++ HEADER_BYTES ++ toBE64 P.length ++ toBE64 0) P
    (0 + HEADER_BYTES.length + (toBE64 P.length).length + (toBE64 0).length)
    (by simp [Nat.add_assoc])]
  rw [fwrite_pos_end ([] ++ HEADER_BYTES ++ toBE64 P.length ++ toBE64 0 ++ P) F.2.1
    (0 + HEADER_BYTES.length + (toBE64 P.length).length + (toBE64 0).length + P.length)
    (by simp [Nat.add_assoc])]
  simp only [fseek]
  rw [show [] ++ HEADER_BYTES ++ toBE64 P.length ++ toBE64 0 ++ P ++ F.2.1
      = ([] ++ HEADER_BYTES ++ toBE64 P.length) ++ (toBE64 0 ++ (P ++ F.2.1)) by
    simp [List.append_assoc]]
  rw [fwrite_pos_mid ([] ++ HEADER_BYTES ++ toBE64 P.length) (toBE64 0) (P ++ F.2.1)
    (toBE64 F.2.2) (0 + HEADER_BYTES.length + (toBE64 P.length).length)
    (by simp) (by simp [toBE64_length])]
  rw [show ([] ++ HEADER_BYTES ++ toBE64 P.length) ++ (toBE64 F.2.2 ++ (P ++ F.2.1))
      = ([] ++ HEADER_BYTES ++ toBE64 P.length ++ toBE64 F.2.2) ++ (P ++ F.2.1) by
    simp [List.append_assoc]]
  rw [fwrite_pos_mid ([] ++ HEADER_BYTES ++ toBE64 P.length ++ toBE64 F.2.2) P F.2.1
    (serialize_index F.1)
    (0 + HEADER_BYTES.length + (toBE64 P.length).length + (toBE64 F.2.2).length)
    (by simp [toBE64_length]) hpaths]
  refine congrArg (fun x => Except.ok ((), x)) ?_
  have hbuf : ([] ++ HEADER_BYTES ++ toBE64 P.length ++ toBE64 F.2.2)
      ++ (serialize_index F.1 ++ F.2.1)
      = HEADER_BYTES ++ (toBE64 P.length ++ (toBE64 F.2.2
          ++ (serialize_index F.1 ++ F.2.1))) := by
    simp [List.append_assoc]
  have hpos : 0 + HEADER_BYTES.length + (toBE64 P.length).length
      + (toBE64 F.2.2).length + (serialize_index F.1).length
      = 26 + (serialize_index F.1).length := by
    simp [toBE64_length, HEADER_BYTES]
  rw [hbuf, hpos]

theorem length_le_sum (l : List Nat) (h : ∀ x ∈ l, 1 ≤ x) : l.length ≤ l.sum := by
  induction l with
  | nil => simp
  | cons x xs ih =>
    simp only [List.length_cons, List.sum_cons]
    have h1 := h x (List.mem_cons_self _ _)
    have h2 := ih (fun y hy => h y (List.mem_cons_of_mem _ hy))
    omega

theorem sum_take_le (l : List Nat) (j : Nat) : (l.take j).sum ≤ l.sum := by
  conv_rhs => rw [← List.take_append_drop j l]
  rw [List.sum_append]
  omega

theorem placeholder_serialize_length (m : List (List Nat × List Nat)) :
    (serialize_index (m.map (fun e => (e.1, U64MAX, U64MAX)))).length
      = 8 + (m.map (fun e => 24 + e.1.length)).sum := by
  rw [serialize_index_length, List.map_map]
  rfl

theorem flush_index_bounds (codec : Codec) (lvl : Nat)
    (m : List (List Nat × List Nat))
    (hbound : flush_file_size codec lvl m < 2 ^ 64) :
    (flush_loop codec lvl 0 m).1.length < 2 ^ 64 ∧
    ∀ t ∈ (flush_loop codec lvl 0 m).1,
      t.1.length < 2 ^ 64 ∧ t.2.1 < 2 ^ 64 ∧ t.2.2 < 2 ^ 64 := by
  rw [flush_file_size, placeholder_serialize_length] at hbound
  have hct : compressed_total codec lvl m < 2 ^ 64 := by omega
  have hsum : (m.map (fun e => 24 + e.1.length)).sum < 2 ^ 64 := by omega
  have hlen : m.length < 2 ^ 64 := by
    have h1 : (m.map (fun e => 24 + e.1.length)).length
        ≤ (m.map (fun e => 24 + e.1.length)).sum :=
      length_le_sum _ (fun x hx => by
        obtain ⟨e, _, he⟩ := List.mem_map.mp hx
        omega)
    rw [List.length_map] at h1
    omega
  constructor
  · rw [flush_loop_idx_length]
    exact hlen
  · intro t ht
    obtain ⟨⟨j, hj⟩, hget⟩ := List.mem_iff_get.mp ht
    have hj' : j < m.length := by
      have := flush_loop_idx_length codec lvl m 0
      omega
    have hq := flush_loop_get codec lvl m 0 j hj' (by omega)
    rw [List.get?_eq_get hj, hget] at hq
    injection hq with hq
    subst hq
    refine ⟨?_, ?_, ?_⟩
    · show (m.get ⟨j, hj'⟩).1.length < 2 ^ 64
      have hmem : 24 + (m.get ⟨j, hj'⟩).1.length ∈ m.map (fun e => 24 + e.1.length) :=
        List.mem_map.mpr ⟨m.get ⟨j, hj'⟩, m.get_mem j hj', rfl⟩
      have := List.single_le_sum (fun (x : Nat) _ => Nat.zero_le x) _ hmem
      omega
    · show 0 + compressed_total codec lvl (m.take j) < 2 ^ 64
      have h1 : compressed_total codec lvl (m.take j) ≤ compressed_total codec lvl m := by
        rw [compressed_total, compressed_total, List.map_take]
        exact sum_take_le _ j
      omega
    · show (codec.compress (m.get ⟨j, hj'⟩).2 lvl).length < 2 ^ 64
      have hmem : (codec.compress (m.get ⟨j, hj'⟩).2 lvl).length
          ∈ m.map (fun e => (codec.compress e.2 lvl).length) :=
        List.mem_map.mpr ⟨m.get ⟨j, hj'⟩, m.get_mem j hj', rfl⟩
      have := List.single_le_sum (fun (x : Nat) _ => Nat.zero_le x) _ hmem
      rw [← compressed_total] at this
      omega

theorem read_bytes_zero (mid post : List Nat) (n : Nat) (hn : mid.length = n) :
    read_bytes (mid ++ post) 0 n = mid := by
  have := read_bytes_exact [] mid post n hn
  simpa using this

theorem read_bytes_at (pre mid post : List Nat) (p n : Nat)
    (hp : p = pre.length) (hn : mid.length = n) :
    read_bytes (pre ++ (mid ++ post)) p n = mid := by
  subst hp
  rw [← List.append_assoc]
  exact read_bytes_exact pre mid post n hn

/-- Opening the file produced by a successful flush parses back exactly
the finalized index and records the data-block base `26 + L_idx`. -/
theorem reader_new_flushed (codec : Codec) (lvl : Nat)
    (m : List (List Nat × List Nat))
    (hbound : flush_file_size codec lvl m < 2 ^ 64) :
    ResourceLibraryReader.new
        (HEADER_BYTES
          ++ (toBE64 (serialize_index (m.map (fun e => (e.1, U64MAX, U64MAX)))).length
          ++ (toBE64 (flush_loop codec lvl 0 m).2.2
          ++ (serialize_index (flush_loop codec lvl 0 m).1
          ++ (flush_loop codec lvl 0 m).2.1))))
      = .ok ⟨HEADER_BYTES
          ++ (toBE64 (serialize_index (m.map (fun e => (e.1, U64MAX, U64MAX)))).length
          ++ (toBE64 (flush_loop codec lvl 0 m).2.2
          ++ (serialize_index (flush_loop codec lvl 0 m).1
          ++ (flush_loop codec lvl 0 m).2.1))),
        (flush_loop codec lvl 0 m).1,
        26 + (serialize_index (m.map (fun e => (e.1, U64MAX, U64MAX)))).length⟩ := by
  have hpaths : (serialize_index (m.map (fun e => (e.1, U64MAX, U64MAX)))).length
      = (serialize_index (flush_loop codec lvl 0 m).1).length := by
    apply serialize_index_length_of_paths_eq
    rw [flush_loop_paths]
    simp only [List.map_map]
    rfl
  have hPL : (serialize_index (m.map (fun e => (e.1, U64MAX, U64MAX)))).length < 2 ^ 64 := by
    rw [flush_file_size] at hbound
    omega
  obtain ⟨hcount, hb⟩ := flush_index_bounds codec lvl m hbound
  set P := serialize_index (m.map (fun e => (e.1, U64MAX, U64MAX))) with hP
  set F := flush_loop codec lvl 0 m with hF
  unfold ResourceLibraryReader.new
  have h10 : read_bytes (HEADER_BYTES
      ++ (toBE64 P.length ++ (toBE64 F.2.2 ++ (serialize_index F.1 ++ F.2.1)))) 0 10
      = HEADER_BYTES := read_bytes_zero _ _ _ rfl
  have h8a : read_bytes (HEADER_BYTES
      ++ (toBE64 P.length ++ (toBE64 F.2.2 ++ (serialize_index F.1 ++ F.2.1)))) 10 8
      = toBE64 P.length := read_bytes_at _ _ _ _ _ rfl (toBE64_length _)
  rw [h10, if_pos rfl, h8a, fromBE_toBE64, Nat.mod_eq_of_lt hPL]
  simp only []
  have h26 : read_bytes (HEADER_BYTES
      ++ (toBE64 P.length ++ (toBE64 F.2.2 ++ (serialize_index F.1 ++ F.2.1)))) 26 P.length
      = serialize_index F.1 := by
    rw [show HEADER_BYTES ++ (toBE64 P.length ++ (toBE64 F.2.2 ++ (serialize_index F.1 ++ F.2.1)))
        = (HEADER_BYTES ++ toBE64 P.length ++ toBE64 F.2.2)
          ++ (serialize_index F.1 ++ F.2.1) from by simp [List.append_assoc]]
    exact read_bytes_at _ _ _ _ _ (by simp [toBE64_length, HEADER_BYTES]) hpaths.symm
  rw [h26, index_from_bytes_serialize_index F.1 hcount hb]
  have hmin : min (HEADER_BYTES
      ++ (toBE64 P.length ++ (toBE64 F.2.2 ++ (serialize_index F.1 ++ F.2.1)))).length
        (26 + P.length) = 26 + P.length := by
    apply Nat.min_eq_right
    simp [toBE64_length, HEADER_BYTES, hpaths]
    omega
  rw [hmin]

theorem MapSorted_of_paths_eq {α β : Type} (l₁ : List (List Nat × α))
    (l₂ : List (List Nat × β)) (h : l₁.map (fun e => e.1) = l₂.map (fun e => e.1))
    (hs : MapSorted l₁) : MapSorted l₂ := by
  have h1 : List.Pairwise (fun a b => compareBytes a b = .lt) (l₁.map (fun e => e.1)) :=
    List.pairwise_map.mpr hs
  rw [h] at h1
  exact List.pairwise_map.mp h1

theorem read_bytes_shift (A rest : List Nat) (off n : Nat) :
    read_bytes (A ++ rest) (A.length + off) n = read_bytes rest off n := by
  unfold read_bytes
  rw [List.drop_append]
  have h1 : (A ++ rest).length - (A.length + off) = rest.length - off := by
    rw [List.length_append]
    omega
  rw [h1]

theorem read_bytes_of_le (l : List Nat) (off n : Nat) (h : off + n ≤ l.length) :
    read_bytes l off n = (l.drop off).take n := by
  unfold read_bytes
  have h1 : n - (l.length - off) = 0 := by omega
  rw [h1]
  simp

theorem flatMap_length_eq (codec : Codec) (lvl : Nat)
    (m : List (List Nat × List Nat)) :
    (m.flatMap (fun e => codec.compress e.2 lvl)).length
      = compressed_total codec lvl m := by
  induction m with
  | nil => rfl
  | cons e rest ih =>
    rw [List.flatMap_cons, List.length_append, ih]
    simp [compressed_total]

theorem compressed_total_take_succ (codec : Codec) (lvl : Nat)
    (m : List (List Nat × List Nat)) (j : Nat) (hj : j < m.length) :
    compressed_total codec lvl (m.take (j + 1))
      = compressed_total codec lvl (m.take j)
        + (codec.compress (m.get ⟨j, hj⟩).2 lvl).length := by
  rw [compressed_total, compressed_total, List.map_take, List.map_take,
    ← List.take_concat_get _ _ (by simpa using hj),
    List.concat_eq_append, List.sum_append]
  simp

/-- Reading a staged path from a flushed archive yields its original
bytes, provided the codec round-trips. -/
theorem read_file_flushed_present (codec : Codec) (lvl : Nat)
    (m : List (List Nat × List Nat))
    (hsort : MapSorted m)
    (hcodec : ∀ b l, codec.decompress (codec.compress b l) = some b)
    (hbound : flush_file_size codec lvl m < 2 ^ 64)
    (j : Nat) (hj : j < m.length) :
    (⟨HEADER_BYTES
        ++ (toBE64 (serialize_index (m.map (fun e => (e.1, U64MAX, U64MAX)))).length
        ++ (toBE64 (flush_loop codec lvl 0 m).2.2
        ++ (serialize_index (flush_loop codec lvl 0 m).1
        ++ (flush_loop codec lvl 0 m).2.1))),
      (flush_loop codec lvl 0 m).1,
      26 + (serialize_index (m.map (fun e => (e.1, U64MAX, U64MAX)))).length⟩ :
        ResourceLibraryReader).read_file codec (m.get ⟨j, hj⟩).1
      = .ok (m.get ⟨j, hj⟩).2 := by
  have hidxlen : (flush_loop codec lvl 0 m).1.length = m.length :=
    flush_loop_idx_length codec lvl m 0
  have hct : compressed_total codec lvl m < 2 ^ 64 := by
    rw [flush_file_size] at hbound
    omega
  have hsortF : MapSorted (flush_loop codec lvl 0 m).1 :=
    MapSorted_of_paths_eq m _ (flush_loop_paths codec lvl m 0).symm hsort
  have hj2 : j < (flush_loop codec lvl 0 m).1.length := by omega
  have hget := flush_loop_get codec lvl m 0 j hj (by omega)
  rw [List.get?_eq_get hj2] at hget
  injection hget with hget
  have hpathj : ((flush_loop codec lvl 0 m).1.get ⟨j, hj2⟩).1 = (m.get ⟨j, hj⟩).1 := by
    rw [hget]
  obtain ⟨i, hi⟩ := binary_search_idx_of_sorted_mem (flush_loop codec lvl 0 m).1
    ([], 0, 0) (m.get ⟨j, hj⟩).1 hsortF j hj2 hpathj
  obtain ⟨hilt, hieq⟩ := binary_search_idx_some _ _ _ i hi
  have hij : i = j := by
    apply MapSorted_path_inj _ hsortF i j hilt hj2
    rw [← List.getD_eq_get _ ([], 0, 0) hilt]
    rw [compareBytes_eq_iff.mp hieq, hpathj]
  have hgetD : (flush_loop codec lvl 0 m).1.getD i ([], 0, 0)
      = ((m.get ⟨j, hj⟩).1, 0 + compressed_total codec lvl (m.take j),
         (codec.compress (m.get ⟨j, hj⟩).2 lvl).length) := by
    rw [List.getD_eq_get _ ([], 0, 0) hilt]
    subst hij
    exact hget
  rw [ResourceLibraryReader.read_file, hi]
  simp only []
  rw [hgetD]
  have hoffb : compressed_total codec lvl (m.take j) ≤ compressed_total codec lvl m := by
    rw [compressed_total, compressed_total, List.map_take]
    exact sum_take_le _ j
  have hlenb : compressed_total codec lvl (m.take j)
      + (codec.compress (m.get ⟨j, hj⟩).2 lvl).length
      ≤ compressed_total codec lvl m := by
    have hsplit := compressed_total_take_succ codec lvl m j hj
    have h2 : compressed_total codec lvl (m.take (j + 1)) ≤ compressed_total codec lvl m := by
      rw [compressed_total, compressed_total, List.map_take]
      exact sum_take_le _ (j + 1)
    omega
  have hPL : (serialize_index (m.map (fun e => (e.1, U64MAX, U64MAX)))).length < 2 ^ 64 := by
    rw [flush_file_size] at hbound
    omega
  have hmod : (26 + (serialize_index (m.map (fun e => (e.1, U64MAX, U64MAX)))).length
      + (0 + compressed_total codec lvl (m.take j))) % 2 ^ 64
      = 26 + (serialize_index (m.map (fun e => (e.1, U64MAX, U64MAX)))).length
        + (0 + compressed_total codec lvl (m.take j)) := by
    apply Nat.mod_eq_of_lt
    rw [flush_file_size] at hbound
    omega
  rw [hmod]
  have hpaths : (serialize_index (m.map (fun e => (e.1, U64MAX, U64MAX)))).length
      = (serialize_index (flush_loop codec lvl 0 m).1).length := by
    apply serialize_index_length_of_paths_eq
    rw [flush_loop_paths]
    simp only [List.map_map]
    rfl
  have hpre : 26 + (serialize_index (m.map (fun e => (e.1, U64MAX, U64MAX)))).length
      + (0 + compressed_total codec lvl (m.take j))
      = (HEADER_BYTES
          ++ (toBE64 (serialize_index (m.map (fun e => (e.1, U64MAX, U64MAX)))).length
          ++ (toBE64 (flush_loop codec lvl 0 m).2.2
          ++ serialize_index (flush_loop codec lvl 0 m).1))).length
        + compressed_total codec lvl (m.take j) := by
    simp [toBE64_length, HEADER_BYTES, hpaths]
    omega
  have hshape : HEADER_BYTES
      ++ (toBE64 (serialize_index (m.map (fun e => (e.1, U64MAX, U64MAX)))).length
      ++ (toBE64 (flush_loop codec lvl 0 m).2.2
      ++ (serialize_index (flush_loop codec lvl 0 m).1
      ++ (flush_loop codec lvl 0 m).2.1)))
      = (HEADER_BYTES
          ++ (toBE64 (serialize_index (m.map (fun e => (e.1, U64MAX, U64MAX)))).length
          ++ (toBE64 (flush_loop codec lvl 0 m).2.2
          ++ serialize_index (flush_loop codec lvl 0 m).1)))
        ++ (flush_loop codec lvl 0 m).2.1 := by
    simp [List.append_assoc]
  rw [hpre, hshape, read_bytes_shift]
  rw [flush_loop_blk]
  have hseg : read_bytes (m.flatMap (fun e => codec.compress e.2 lvl))
      (compressed_total codec lvl (m.take j))
      (codec.compress (m.get ⟨j, hj⟩).2 lvl).length
      = codec.compress (m.get ⟨j, hj⟩).2 lvl := by
    rw [read_bytes_of_le _ _ _ (by rw [flatMap_length_eq]; omega), compressed_total]
    exact flatMap_segment (fun e => codec.compress e.2 lvl) m j hj
  rw [hseg, hcodec]

/-- Reading an absent path from a flushed archive fails with the
file-not-found error. -/
theorem read_file_flushed_absent (codec : Codec) (lvl : Nat)
    (m : List (List Nat × List Nat)) (q : List Nat)
    (hq : ¬ q ∈ m.map (fun e => e.1)) :
    (⟨HEADER_BYTES
        ++ (toBE64 (serialize_index (m.map (fun e => (e.1, U64MAX, U64MAX)))).length
        ++ (toBE64 (flush_loop codec lvl 0 m).2.2
        ++ (serialize_index (flush_loop codec lvl 0 m).1
        ++ (flush_loop codec lvl 0 m).2.1))),
      (flush_loop codec lvl 0 m).1,
      26 + (serialize_index (m.map (fun e => (e.1, U64MAX, U64MAX)))).length⟩ :
        ResourceLibraryReader).read_file codec q
      = .error .fileNotFound := by
  rw [ResourceLibraryReader.read_file]
  rw [binary_search_idx_absent _ _ _ (by
    intro t ht he
    apply hq
    rw [← flush_loop_paths codec lvl m 0, ← he]
    exact List.mem_map.mpr ⟨t, ht, rfl⟩)]

theorem map_remove_get {α : Type} :
    ∀ {m : List (List Nat × α)} {k : List Nat} {r : α} {m' : List (List Nat × α)},
      map_remove m k = some (r, m') → map_get m k = some r := by
  intro m
  induction m with
  | nil => intro k r m' h; simp [map_remove] at h
  | cons e rest ih =>
    intro k r m' h
    rw [map_remove] at h
    rw [map_get]
    split at h
    · rename_i hc
      rw [if_pos hc]
      injection h with h'
      injection h' with h1 h2
      rw [h1]
    · rename_i hc
      rw [if_neg hc]
      rcases hrec : map_remove rest k with _ | ⟨r2, m2⟩ <;> rw [hrec] at h
      · exact absurd h (by simp)
      · injection h with h'
        injection h' with h1 h2
        subst h1
        exact ih hrec

theorem map_get_none {α : Type} :
    ∀ {m : List (List Nat × α)} {k : List Nat},
      map_get m k = none → ∀ e ∈ m, compareBytes k e.1 ≠ .eq := by
  intro m
  induction m with
  | nil => intro k _ e he; simp at he
  | cons e0 rest ih =>
    intro k h e he
    rw [map_get] at h
    split at h
    · exact absurd h (by simp)
    · rename_i hc
      rcases List.mem_cons.mp he with h' | h'
      · rw [h']
        exact hc
      · exact ih h e h'

theorem read_all_isOk (m : List (List Nat × Resource))
    (h : ∀ e ∈ m, e.2 ≠ none) : ∃ raw, read_all m = .ok raw := by
  induction m with
  | nil => exact ⟨[], rfl⟩
  | cons e rest ih =>
    obtain ⟨p, rsc⟩ := e
    obtain ⟨raw, hraw⟩ := ih (fun e' he' => h e' (List.mem_cons_of_mem _ he'))
    rcases rsc with _ | b
    · exact (h (p, none) (List.mem_cons_self _ _) rfl).elim
    · refine ⟨(p, b) :: raw, ?_⟩
      rw [read_all, hraw]

/-! Claim theorems. -/

/-- C2 (supporting theorem for the code bug): the property the
spec-mandated assert is supposed to check always holds — re-encoding the
finalized index produces exactly as many bytes as the placeholder index
encoding (`L_idx`), because the numeric fields are fixed-width and the
paths are unchanged.  The source, however, performs no such assertion:
`write_to_file` writes the re-encoded index unconditionally. -/
theorem claim_C2_reencoded_index_length_invariant (codec : Codec) (lvl : Nat)
    (m : List (List Nat × List Nat)) (acc : Nat) :
    (serialize_index (flush_loop codec lvl acc m).1).length
      = (serialize_index (m.map (fun e => (e.1, U64MAX, U64MAX)))).length := by
  apply serialize_index_length_of_paths_eq
  rw [flush_loop_paths]
  simp only [List.map_map]
  rfl

/-- C3 counterexample: a successful flush returns `Ok(())` — the success
payload is the unit value, not a byte count. -/
theorem claim_C3_counterexample :
    Except.map (fun x => x.1)
        ((⟨[([97], some [1, 2])]⟩ : ResourceLibraryWriter).write_to_file idCodec .fastest)
      = .ok () := by
  rfl

/-- C3 amended: `write_to_file` returns `Result<()>`: whenever every
staged resource is readable the flush succeeds, and its success value is
`()` (no byte count is reported). -/
theorem claim_C3_flush_returns_unit (w : ResourceLibraryWriter)
    (codec : Codec) (lvl : CompressionLevel)
    (hok : ∀ e ∈ w.map, e.2 ≠ none) :
    ∃ f, w.write_to_file codec lvl = .ok ((), f) := by
  obtain ⟨raw, hraw⟩ := read_all_isOk w.map hok
  rw [ResourceLibraryWriter.write_to_file, hraw]
  exact ⟨_, rfl⟩

/-- Witness for C3 amended at a concrete one-entry stage. -/
theorem claim_C3_flush_returns_unit_witness :
    ∃ f, (⟨[([97], some [1, 2])]⟩ : ResourceLibraryWriter).write_to_file idCodec .fastest
      = .ok ((), f) :=
  claim_C3_flush_returns_unit _ idCodec .fastest (by
    intro e he
    simp only [List.mem_singleton] at he
    subst he
    simp)

/-- C5 counterexample: `take_data` on the forbidden-character path
`"a?b"` fails with `NotFound` (the path reaches the map lookup), not with
`InvalidPath`; the reader's `read_file` on the same path fails with its
file-not-found error.  Neither operation validates the path. -/
theorem claim_C5_counterexample :
    (ResourceLibraryWriter.new.take_data [97, 63, 98]).1
        = .error (.notFound [97, 63, 98]) ∧
    (⟨[], [], 0⟩ : ResourceLibraryReader).read_file idCodec [97, 63, 98]
        = .error .fileNotFound := by
  constructor <;> rfl

/-- C5 amended: path validation is applied by `write_stream` and
`read_data` before any other effect (on a forbidden path they return the
validation error with the stage unchanged), but `take_data` and the
reader's `read_file` perform no validation at all — they can never
return `InvalidPath`. -/
theorem claim_C5_validation_scope :
    (∀ (w : ResourceLibraryWriter) (path : List Nat) (r : Resource) (e : LibError),
      verify_string path = .error e → w.write_stream path r = (.error e, w)) ∧
    (∀ (w : ResourceLibraryWriter) (path : List Nat) (e : LibError),
      verify_string path = .error e → w.read_data path = (.error e, w)) ∧
    (∀ (w : ResourceLibraryWriter) (path : List Nat) (c : Nat),
      (w.take_data path).1 ≠ .error (.invalidPath c)) ∧
    (∀ (r : ResourceLibraryReader) (codec : Codec) (path : List Nat) (c : Nat),
      r.read_file codec path ≠ .error (.invalidPath c)) := by
  refine ⟨?_, ?_, ?_, ?_⟩
  · intro w path r e he
    rw [ResourceLibraryWriter.write_stream, he]
  · intro w path e he
    rw [ResourceLibraryWriter.read_data, he]
  · intro w path c
    rw [ResourceLibraryWriter.take_data]
    rcases map_remove w.map path with _ | ⟨r, m2⟩
    · simp
    · rcases r with _ | b <;> simp
  · intro r codec path c
    rw [ResourceLibraryReader.read_file]
    rcases binary_search_idx r.index ([], 0, 0) (fun e => compareBytes e.1 path) with _ | i
    · simp
    · simp only []
      rcases codec.decompress (read_bytes r.file
        ((r.data_pointer + (r.index.getD i ([], 0, 0)).2.1) % 2 ^ 64)
        (r.index.getD i ([], 0, 0)).2.2) with _ | d <;> simp

/-- Witness for C5 amended: `write_stream` of `"a?b"` fails with
`InvalidPath('?')` and leaves the stage unchanged. -/
theorem claim_C5_validation_scope_witness :
    ResourceLibraryWriter.new.write_stream [97, 63, 98] (some [1])
      = (.error (.invalidPath 63), ResourceLibraryWriter.new) :=
  claim_C5_validation_scope.1 ResourceLibraryWriter.new [97, 63, 98] (some [1])
    (.invalidPath 63) (by rfl)

/-- C6 counterexample: `take_data` removes the entry before reading, so
when the resource read fails the staged entry is gone afterward — the
stage is `[]`, not the original one-entry map the claim requires. -/
theorem claim_C6_counterexample :
    (⟨[([97], none)]⟩ : ResourceLibraryWriter).take_data [97]
      = (.error .ioError, ⟨[]⟩) := by
  rfl

/-- C6 amended: `take_data` fails `NotFound` when the path is absent
(stage unchanged), and otherwise returns exactly what `read_data` would
return for a valid path — but it removes the entry first, so the entry is
gone afterward even when reading the resource fails. -/
theorem claim_C6_take_semantics (w : ResourceLibraryWriter) (path : List Nat)
    (hv : verify_string path = .ok path) :
    (map_get w.map path = none →
      w.take_data path = (.error (.notFound path), w)) ∧
    (∀ r m', map_remove w.map path = some (r, m') →
      (w.take_data path).1 = (w.read_data path).1 ∧
      (w.take_data path).2 = ⟨m'⟩) := by
  constructor
  · intro hnone
    rw [ResourceLibraryWriter.take_data,
      map_remove_of_absent (map_get_none hnone)]
  · intro r m' hrem
    have hget : map_get w.map path = some r := map_remove_get hrem
    rw [ResourceLibraryWriter.take_data, hrem, ResourceLibraryWriter.read_data, hv]
    simp only []
    rw [hget]
    rcases r with _ | b <;> exact ⟨rfl, rfl⟩

/-- Witness for C6 amended at a concrete one-entry stage. -/
theorem claim_C6_take_semantics_witness :
    ((⟨[([97], some [5])]⟩ : ResourceLibraryWriter).take_data [97]).1
        = ((⟨[([97], some [5])]⟩ : ResourceLibraryWriter).read_data [97]).1 ∧
    ((⟨[([97], some [5])]⟩ : ResourceLibraryWriter).take_data [97]).2
        = ⟨[]⟩ :=
  (claim_C6_take_semantics ⟨[([97], some [5])]⟩ [97] (by rfl)).2 (some [5]) [] (by rfl)

/-- C7: the index codec round-trips — decoding the encoding of any
sequence of `(string, u64, u64)` triples (empty strings, the empty
sequence and the extreme `u64` values included) reproduces the sequence
exactly. -/
theorem claim_C7_index_codec_roundtrip (l : List (List Nat × Nat × Nat))
    (hcount : l.length < 2 ^ 64)
    (hb : ∀ t ∈ l, t.1.length < 2 ^ 64 ∧ t.2.1 < 2 ^ 64 ∧ t.2.2 < 2 ^ 64) :
    index_from_bytes (serialize_index l) = .ok l :=
  index_from_bytes_serialize_index l hcount hb

/-- Witness for C7 with an empty string, offset `0` and `u64::MAX`. -/
theorem claim_C7_index_codec_roundtrip_witness :
    index_from_bytes (serialize_index [([], 0, 2 ^ 64 - 1), ([97, 98], 5, 0)])
      = .ok [([], 0, 2 ^ 64 - 1), ([97, 98], 5, 0)] :=
  claim_C7_index_codec_roundtrip [([], 0, 2 ^ 64 - 1), ([97, 98], 5, 0)]
    (by decide) (by decide)

/-- C10: `ByteStream::seek` is total and never fails.  For every
machine-representable seek argument, on a Rust-representable buffer
(length below `2 ^ 63`, the allocation limit `isize::MAX`) with an
in-bounds cursor, the resulting position is clamped to at most the buffer
length; an `End` or `Current` seek whose computed (wrapping) `i64` target
is negative sets the position to the end of the buffer — via the
two's-complement cast of the negative `i64` to `usize` followed by
clamping — rather than to the start or an error. -/
theorem claim_C10_seek_clamps (bs : ByteStream) (p : SeekFrom)
    (hlen : bs.bytes.length < 2 ^ 63) (hpos : bs.position ≤ bs.bytes.length)
    (hwf : p.wf) :
    (bs.seek p).1.position ≤ bs.bytes.length ∧
      (seek_target bs p < 0 → (bs.seek p).1.position = bs.bytes.length) := by
  constructor
  · cases p <;> exact Nat.min_le_right _ _
  · intro hneg
    cases p with
    | start offset =>
      rw [seek_target] at hneg
      omega
    | fromEnd offset =>
      rw [SeekFrom.wf] at hwf
      rw [seek_target, wrapI64, usizeAsI64, if_pos hlen] at hneg
      show min (i64AsUsize (wrapI64 (usizeAsI64 bs.bytes.length + offset)))
        bs.bytes.length = bs.bytes.length
      rw [wrapI64, usizeAsI64, if_pos hlen, i64AsUsize]
      apply Nat.min_eq_right
      omega
    | current offset =>
      rw [SeekFrom.wf] at hwf
      have hposlt : bs.position < 2 ^ 63 := by omega
      rw [seek_target, wrapI64, usizeAsI64, if_pos hposlt] at hneg
      show min (i64AsUsize (wrapI64 (usizeAsI64 bs.position + offset)))
        bs.bytes.length = bs.bytes.length
      rw [wrapI64, usizeAsI64, if_pos hposlt, i64AsUsize]
      apply Nat.min_eq_right
      omega

/-- Witness for C10: a 4-byte stream sought to `End(-10)` ends at
position 4 (the buffer end), not 0. -/
theorem claim_C10_seek_clamps_witness :
    (ByteStream.seek ⟨[0, 0, 0, 0], 0⟩ (SeekFrom.fromEnd (-10))).1.position = 4 := by
  have h := claim_C10_seek_clamps ⟨[0, 0, 0, 0], 0⟩ (SeekFrom.fromEnd (-10))
    (by decide) (by decide) (by constructor <;> decide)
  exact h.2 (by decide)

/-- C4 counterexample: the 26-byte file consisting of the fingerprint,
`L_idx = 8` and `L_data = 0` and nothing else is shorter than
`26 + L_idx + L_data = 34`, yet `ResourceLibraryReader::new` succeeds on
it: the 8 declared index bytes are never compared against what was
actually read (the zero-filled buffer decodes as an empty index). -/
theorem claim_C4_counterexample :
    (HEADER_BYTES ++ (toBE64 8 ++ toBE64 0)).length
        < 26 + fromBE (read_bytes (HEADER_BYTES ++ (toBE64 8 ++ toBE64 0)) 10 8)
          + fromBE (read_bytes (HEADER_BYTES ++ (toBE64 8 ++ toBE64 0)) 18 8) ∧
    ResourceLibraryReader.new (HEADER_BYTES ++ (toBE64 8 ++ toBE64 0))
      = .ok ⟨HEADER_BYTES ++ (toBE64 8 ++ toBE64 0), [], 26⟩ := by
  constructor
  · decide
  · rfl

/-- C4 amended: `ResourceLibraryReader::new` rejects any file whose first
10 bytes differ from the fingerprint, but performs no length check
against `26 + L_idx + L_data`: whenever the fingerprint matches and the
`L_idx`-byte index buffer (zero-padded if the file is shorter) decodes,
`new` succeeds — truncation, including a completely absent data block, is
not detected at open time. -/
theorem claim_C4_header_check_only (file : List Nat) :
    (read_bytes file 0 10 ≠ HEADER_BYTES →
      ResourceLibraryReader.new file = .error .headerMismatch) ∧
    (∀ idx, read_bytes file 0 10 = HEADER_BYTES →
      index_from_bytes (read_bytes file 26 (fromBE (read_bytes file 10 8))) = .ok idx →
      ResourceLibraryReader.new file
        = .ok ⟨file, idx, min file.length (26 + fromBE (read_bytes file 10 8))⟩) := by
  constructor
  · intro h
    rw [ResourceLibraryReader.new, if_neg h]
  · intro idx h1 h2
    rw [ResourceLibraryReader.new, if_pos h1]
    simp only []
    rw [h2]

/-- Witness for C4 amended: a wrong-fingerprint file is rejected and the
truncated 26-byte file is accepted. -/
theorem claim_C4_header_check_only_witness :
    ResourceLibraryReader.new [0] = .error .headerMismatch ∧
    ResourceLibraryReader.new (HEADER_BYTES ++ (toBE64 8 ++ toBE64 0))
      = .ok ⟨HEADER_BYTES ++ (toBE64 8 ++ toBE64 0), [],
          min (HEADER_BYTES ++ (toBE64 8 ++ toBE64 0)).length (26 + 8)⟩ :=
  ⟨(claim_C4_header_check_only [0]).1 (by decide),
   (claim_C4_header_check_only (HEADER_BYTES ++ (toBE64 8 ++ toBE64 0))).2 []
     (by rfl) (by rfl)⟩

theorem flush_loop_lens_sum (codec : Codec) (lvl : Nat) :
    ∀ (m : List (List Nat × List Nat)) (acc : Nat),
      acc + compressed_total codec lvl m < 2 ^ 64 →
      ((flush_loop codec lvl acc m).1.map (fun t => t.2.2)).sum
        = compressed_total codec lvl m := by
  intro m
  induction m with
  | nil =>
    intro acc _
    simp [flush_loop, compressed_total]
  | cons e rest ih =>
    intro acc hb
    rw [compressed_total, List.map_cons, List.sum_cons] at hb
    have hsz : (codec.compress e.2 lvl).length < 2 ^ 64 := by omega
    rw [flush_loop]
    simp only [List.map_cons, List.sum_cons]
    rw [Nat.mod_eq_of_lt hsz, Nat.mod_eq_of_lt (by omega)]
    rw [ih _ (by rw [compressed_total]; omega)]
    simp only [compressed_total, List.map_cons, List.sum_cons]

/-- C1: the full round-trip.  Staging any set of `(path, bytes)` pairs
with valid, pairwise-distinct paths (empty byte content allowed) through
`write_stream`, flushing with `write_to_file` at any compression tier
under any codec satisfying the decompress-compress contract, reopening
the destination with `ResourceLibraryReader::new` and calling `read_file`
on each staged path returns exactly the originally staged bytes.  The
size hypothesis rules out `u64` overflow (a real file cannot reach
`2 ^ 64` bytes). -/
theorem claim_C1_roundtrip (pairs : List (List Nat × List Nat))
    (codec : Codec) (lvl : CompressionLevel)
    (hvalid : ∀ pb ∈ pairs, ∀ c ∈ pb.1, ¬ c ∈ FORBIDDEN_CHARACTERS)
    (hnd : (pairs.map (fun pb => pb.1)).Nodup)
    (hcodec : ∀ b l, codec.decompress (codec.compress b l) = some b)
    (hbound : flush_file_size codec lvl.val (raw_stage pairs) < 2 ^ 64) :
    ∃ f rdr, (stage_all pairs).write_to_file codec lvl = .ok ((), f) ∧
      ResourceLibraryReader.new f.buffer = .ok rdr ∧
      ∀ pb ∈ pairs, rdr.read_file codec pb.1 = .ok pb.2 := by
  have hv' : ∀ pb ∈ pairs, verify_string pb.1 = .ok pb.1 :=
    fun pb h => verify_string_ok _ (hvalid pb h)
  have hsm : stage_all pairs = ⟨ok_map (raw_stage pairs)⟩ := by
    rw [← stage_all_map pairs hv']
  rw [hsm, write_to_file_ok]
  refine ⟨_, _, rfl, reader_new_flushed codec lvl.val (raw_stage pairs) hbound, ?_⟩
  intro pb hpb
  have hget : map_get (raw_stage pairs) pb.1 = some pb.2 :=
    raw_stage_get pairs hnd pb hpb
  have hmem : (pb.1, pb.2) ∈ raw_stage pairs := map_get_mem hget
  obtain ⟨⟨j, hj⟩, hj2⟩ := List.mem_iff_get.mp hmem
  have hread := read_file_flushed_present codec lvl.val (raw_stage pairs)
    (raw_stage_sorted pairs) hcodec hbound j hj
  rw [hj2] at hread
  exact hread

/-- Witness for C1 at a two-entry stage (staged in non-sorted order, one
entry with empty content) under the identity codec. -/
theorem claim_C1_roundtrip_witness :
    ∃ f rdr, (stage_all [([98], [9]), ([97], [])]).write_to_file idCodec .fastest
        = .ok ((), f) ∧
      ResourceLibraryReader.new f.buffer = .ok rdr ∧
      ∀ pb ∈ [([98], [9]), ([97], ([] : List Nat))],
        rdr.read_file idCodec pb.1 = .ok pb.2 :=
  claim_C1_roundtrip [([98], [9]), ([97], [])] idCodec .fastest
    (by decide) (by decide) (fun b l => rfl) (by decide)

/-- C8: after a flush, the on-disk index parsed back by the reader lists
its entries strictly ascending by path; `read_file` (binary search)
succeeds with the staged bytes on every present path and fails with the
not-found error on every absent path. -/
theorem claim_C8_sorted_binary_search (pairs : List (List Nat × List Nat))
    (codec : Codec) (lvl : CompressionLevel)
    (hvalid : ∀ pb ∈ pairs, ∀ c ∈ pb.1, ¬ c ∈ FORBIDDEN_CHARACTERS)
    (hnd : (pairs.map (fun pb => pb.1)).Nodup)
    (hcodec : ∀ b l, codec.decompress (codec.compress b l) = some b)
    (hbound : flush_file_size codec lvl.val (raw_stage pairs) < 2 ^ 64) :
    ∃ f rdr, (stage_all pairs).write_to_file codec lvl = .ok ((), f) ∧
      ResourceLibraryReader.new f.buffer = .ok rdr ∧
      MapSorted rdr.index ∧
      (∀ pb ∈ pairs, rdr.read_file codec pb.1 = .ok pb.2) ∧
      (∀ q, ¬ q ∈ pairs.map (fun pb => pb.1) →
        rdr.read_file codec q = .error .fileNotFound) := by
  have hv' : ∀ pb ∈ pairs, verify_string pb.1 = .ok pb.1 :=
    fun pb h => verify_string_ok _ (hvalid pb h)
  have hsm : stage_all pairs = ⟨ok_map (raw_stage pairs)⟩ := by
    rw [← stage_all_map pairs hv']
  rw [hsm, write_to_file_ok]
  refine ⟨_, _, rfl, reader_new_flushed codec lvl.val (raw_stage pairs) hbound,
    ?_, ?_, ?_⟩
  · exact MapSorted_of_paths_eq (raw_stage pairs) _
      (flush_loop_paths codec lvl.val (raw_stage pairs) 0).symm
      (raw_stage_sorted pairs)
  · intro pb hpb
    have hget : map_get (raw_stage pairs) pb.1 = some pb.2 :=
      raw_stage_get pairs hnd pb hpb
    have hmem : (pb.1, pb.2) ∈ raw_stage pairs := map_get_mem hget
    obtain ⟨⟨j, hj⟩, hj2⟩ := List.mem_iff_get.mp hmem
    have hread := read_file_flushed_present codec lvl.val (raw_stage pairs)
      (raw_stage_sorted pairs) hcodec hbound j hj
    rw [hj2] at hread
    exact hread
  · intro q hq
    apply read_file_flushed_absent
    intro hmemq
    obtain ⟨e, he, heq⟩ := List.mem_map.mp hmemq
    exact hq (List.mem_map.mpr ⟨e, raw_stage_mem pairs e he, heq⟩)

/-- Witness for C8 at a three-entry stage: first, middle and last staged
paths all read back, and the absent path `[100]` misses. -/
theorem claim_C8_sorted_binary_search_witness :
    ∃ f rdr, (stage_all [([97], [1]), ([98], [2]), ([99], [3])]).write_to_file
          idCodec .fastest = .ok ((), f) ∧
      ResourceLibraryReader.new f.buffer = .ok rdr ∧
      MapSorted rdr.index ∧
      (∀ pb ∈ [([97], [1]), ([98], [2]), ([99], ([3] : List Nat))],
        rdr.read_file idCodec pb.1 = .ok pb.2) ∧
      (∀ q, ¬ q ∈ [([97], [1]), ([98], [2]), ([99], ([3] : List Nat))].map
          (fun pb => pb.1) →
        rdr.read_file idCodec q = .error .fileNotFound) :=
  claim_C8_sorted_binary_search [([97], [1]), ([98], [2]), ([99], [3])]
    idCodec .fastest (by decide) (by decide) (fun b l => rfl) (by decide)

/-- C9: the finalized index partitions the data block contiguously — the
first entry's offset is 0, each next entry's offset is the previous
offset plus its length, the entry lengths sum to the data length, and
that data length is exactly the `L_data` field backpatched into the
header (bytes 18..26) of the flushed file. -/
theorem claim_C9_data_partition (codec : Codec) (lvl : CompressionLevel)
    (m : List (List Nat × List Nat))
    (hbound : flush_file_size codec lvl.val m < 2 ^ 64) :
    ∃ f, (⟨ok_map m⟩ : ResourceLibraryWriter).write_to_file codec lvl
        = .ok ((), f) ∧
      read_bytes f.buffer 18 8 = toBE64 (compressed_total codec lvl.val m) ∧
      (∀ t, (flush_loop codec lvl.val 0 m).1.get? 0 = some t → t.2.1 = 0) ∧
      (∀ j t t', (flush_loop codec lvl.val 0 m).1.get? j = some t →
        (flush_loop codec lvl.val 0 m).1.get? (j + 1) = some t' →
        t'.2.1 = t.2.1 + t.2.2) ∧
      ((flush_loop codec lvl.val 0 m).1.map (fun t => t.2.2)).sum
        = compressed_total codec lvl.val m ∧
      (flush_loop codec lvl.val 0 m).2.2 = compressed_total codec lvl.val m := by
  have hct : compressed_total codec lvl.val m < 2 ^ 64 := by
    rw [flush_file_size] at hbound
    omega
  have htot : (flush_loop codec lvl.val 0 m).2.2 = compressed_total codec lvl.val m := by
    have := flush_loop_total codec lvl.val m 0 (by omega)
    omega
  rw [write_to_file_ok]
  refine ⟨_, rfl, ?_, ?_, ?_, flush_loop_lens_sum codec lvl.val m 0 (by omega), htot⟩
  · have h18 : read_bytes (HEADER_BYTES
        ++ (toBE64 (serialize_index (m.map (fun e => (e.1, U64MAX, U64MAX)))).length
        ++ (toBE64 (flush_loop codec lvl.val 0 m).2.2
        ++ (serialize_index (flush_loop codec lvl.val 0 m).1
        ++ (flush_loop codec lvl.val 0 m).2.1)))) 18 8
        = toBE64 (flush_loop codec lvl.val 0 m).2.2 := by
      rw [show HEADER_BYTES
          ++ (toBE64 (serialize_index (m.map (fun e => (e.1, U64MAX, U64MAX)))).length
          ++ (toBE64 (flush_loop codec lvl.val 0 m).2.2
          ++ (serialize_index (flush_loop codec lvl.val 0 m).1
          ++ (flush_loop codec lvl.val 0 m).2.1)))
          = (HEADER_BYTES
              ++ toBE64 (serialize_index (m.map (fun e => (e.1, U64MAX, U64MAX)))).length)
            ++ (toBE64 (flush_loop codec lvl.val 0 m).2.2
              ++ (serialize_index (flush_loop codec lvl.val 0 m).1
              ++ (flush_loop codec lvl.val 0 m).2.1)) from by simp [List.append_assoc]]
      exact read_bytes_at _ _ _ _ _ (by simp [toBE64_length, HEADER_BYTES])
        (toBE64_length _)
    rw [h18, htot]
  · intro t ht
    have h0 : 0 < m.length := by
      rcases m with _ | ⟨e, rest⟩
      · simp [flush_loop] at ht
      · simp
    have hq := flush_loop_get codec lvl.val m 0 0 h0 (by omega)
    rw [ht] at hq
    injection hq with hq
    rw [hq]
    show 0 + compressed_total codec lvl.val (m.take 0) = 0
    simp [compressed_total]
  · intro j t t' ht ht'
    obtain ⟨hlt, _⟩ := List.get?_eq_some.mp ht'
    have hj1 : j + 1 < m.length := by
      have hlen := flush_loop_idx_length codec lvl.val m 0
      omega
    have hj0 : j < m.length := by omega
    have hq := flush_loop_get codec lvl.val m 0 j hj0 (by omega)
    have hq' := flush_loop_get codec lvl.val m 0 (j + 1) hj1 (by omega)
    rw [ht] at hq
    rw [ht'] at hq'
    injection hq with hq
    injection hq' with hq'
    rw [hq, hq']
    show 0 + compressed_total codec lvl.val (m.take (j + 1))
      = 0 + compressed_total codec lvl.val (m.take j)
        + (codec.compress (m.get ⟨j, hj0⟩).2 lvl.val).length
    rw [compressed_total_take_succ codec lvl.val m j hj0]
    omega

/-- Witness for C9 at a concrete two-entry stage under the identity
codec. -/
theorem claim_C9_data_partition_witness :
    ∃ f, (⟨ok_map [([97], [1]), ([98], [2, 3])]⟩ : ResourceLibraryWriter).write_to_file
          idCodec .fastest = .ok ((), f) ∧
      read_bytes f.buffer 18 8
        = toBE64 (compressed_total idCodec CompressionLevel.fastest.val
            [([97], [1]), ([98], [2, 3])]) ∧
      (∀ t, (flush_loop idCodec CompressionLevel.fastest.val 0
          [([97], [1]), ([98], [2, 3])]).1.get? 0 = some t → t.2.1 = 0) ∧
      (∀ j t t', (flush_loop idCodec CompressionLevel.fastest.val 0
          [([97], [1]), ([98], [2, 3])]).1.get? j = some t →
        (flush_loop idCodec CompressionLevel.fastest.val 0
          [([97], [1]), ([98], [2, 3])]).1.get? (j + 1) = some t' →
        t'.2.1 = t.2.1 + t.2.2) ∧
      ((flush_loop idCodec CompressionLevel.fastest.val 0
          [([97], [1]), ([98], [2, 3])]).1.map (fun t => t.2.2)).sum
        = compressed_total idCodec CompressionLevel.fastest.val
            [([97], [1]), ([98], [2, 3])] ∧
      (flush_loop idCodec CompressionLevel.fastest.val 0
          [([97], [1]), ([98], [2, 3])]).2.2
        = compressed_total idCodec CompressionLevel.fastest.val
            [([97], [1]), ([98], [2, 3])] :=
  claim_C9_data_partition idCodec .fastest [([97], [1]), ([98], [2, 3])] (by decide)

end ResourcePackager
